import Mathlib

/-!
# PolyBoRi / BRiAl: critical pairs, S-polynomials and term accumulation

A shallow embedding of

* `spoly`, `lower_term_accumulate`, `upper_term_accumulate` and the two
  `term_accumulate` overloads of `pbori_algorithms.h`,
* the three constructors of `PairLS` (`PairLS.h`),
* `GroebnerStrategy::sameRing` and `PolyEntryPtrLmLess` with the entry set it
  orders (`GroebnerStrategy.h`),

followed by the properties established for them.  Monomials and polynomials of
the decision-diagram library are represented by their mathematical value, the
diagrams themselves by a tree of nodes.
-/

namespace PBoRi

/-! ## Failure modes -/

/-- Ways in which an operation of the source ends without a value. -/
inductive Failure where
  /-- An `assert` of the source does not hold. -/
  | assertion : Failure
  /-- The source leaves the behaviour undefined (access outside a vector,
  branch of a constant node, inexact monomial division). -/
  | undefined : Failure
  /-- The lead of the zero polynomial is requested. -/
  | illegal_on_zero : Failure
  deriving DecidableEq, Repr

instance Except.decidableEq {ε α : Type} [DecidableEq ε] [DecidableEq α] :
    DecidableEq (Except ε α)
  | .ok a, .ok b => decidable_of_iff (a = b) ⟨fun h => h ▸ rfl, fun h => Except.ok.inj h⟩
  | .error a, .error b =>
      decidable_of_iff (a = b) ⟨fun h => h ▸ rfl, fun h => Except.error.inj h⟩
  | .ok _, .error _ => isFalse (fun h => Except.noConfusion h)
  | .error _, .ok _ => isFalse (fun h => Except.noConfusion h)

/-! ## Monomials and polynomials over GF(2) -/

/-- Modelled from the spec: a monomial of the external canonical representation
(class `BooleMonomial`, not among the sources) is the set of the indices of its
variables; the monomial `1` is the empty set. -/
abbrev BooleMonomial := Finset ℕ

/-- Modelled from the spec: a polynomial of the external canonical
representation (class `BoolePolynomial`, not among the sources) is the set of
its monomials, every coefficient being `1` in GF(2); zero is the empty set. -/
abbrev BoolePolynomial := Finset BooleMonomial

instance : Zero BoolePolynomial := ⟨∅⟩

instance : One BoolePolynomial := ⟨{∅}⟩

/-- Modelled from the spec: the XOR-sum of two polynomials keeps the monomials
that occur in exactly one of them. -/
instance : Add BoolePolynomial := ⟨fun p q => symmDiff p q⟩

instance : Neg BoolePolynomial := ⟨fun p => p⟩

instance : AddCommGroup BoolePolynomial where
  add_assoc := symmDiff_assoc
  zero_add := bot_symmDiff
  add_zero := symmDiff_bot
  add_comm := symmDiff_comm
  neg_add_cancel := symmDiff_self
  nsmul := nsmulRec
  zsmul := zsmulRec

/-- Modelled from the spec: product of two monomials in the ring where
`x * x = x`, the union of the variable sets (`BooleMonomial::operator*=`). -/
def BooleMonomial.mul (a b : BooleMonomial) : BooleMonomial := a ∪ b

/-- Modelled from the spec: division of a monomial by a monomial
(`BooleMonomial::operator/`): the variables of the divisor are removed; the
quotient is only defined when every variable of the divisor occurs. -/
def BooleMonomial.div (a b : BooleMonomial) : Except Failure BooleMonomial :=
  if b ⊆ a then .ok (a \ b) else .error .undefined

/-- Modelled from the spec: degree of a monomial, its number of variables. -/
def BooleMonomial.deg (a : BooleMonomial) : ℤ := (a.card : ℤ)

/-- Divisibility of monomials in the ring-theoretic sense: `b` is a multiple of
`a` by some monomial. -/
def BooleMonomial.divides (a b : BooleMonomial) : Prop :=
  ∃ c : BooleMonomial, BooleMonomial.mul a c = b

/-- The monomial `l` is a least common multiple of `a` and `b`. -/
def BooleMonomial.isLcm (l a b : BooleMonomial) : Prop :=
  BooleMonomial.divides a l ∧ BooleMonomial.divides b l ∧
    ∀ c : BooleMonomial, BooleMonomial.divides a c → BooleMonomial.divides b c →
      BooleMonomial.divides l c

/-- Modelled from the spec: the lexicographic monomial order with
`x0 > x1 > x2 > ...` (the default ordering of a ring): `a < b` when the first
variable in which they differ occurs in `b`. -/
def BooleMonomial.lt (a b : BooleMonomial) : Prop :=
  ∃ k ∈ b, k ∉ a ∧ ∀ j < k, (j ∈ a ↔ j ∈ b)

instance BooleMonomial.decidableLt (a b : BooleMonomial) :
    Decidable (BooleMonomial.lt a b) := by
  unfold BooleMonomial.lt; infer_instance

/-- Modelled from the spec: product of a polynomial with a monomial
(`BoolePolynomial * BooleMonomial`): every term is multiplied and the results
are XOR-summed, so terms that coincide after multiplication cancel in pairs. -/
def mulMonomial (p : BoolePolynomial) (m : BooleMonomial) : BoolePolynomial :=
  ∑ a in p, ({BooleMonomial.mul a m} : BoolePolynomial)

/-- Modelled from the spec: product of two polynomials
(`BoolePolynomial * BoolePolynomial`): every term of the first factor is
multiplied with the second factor and the results are XOR-summed. -/
def mulPolynomial (p q : BoolePolynomial) : BoolePolynomial :=
  ∑ a in p, mulMonomial q a

/-- Modelled from the spec: lead-monomial extraction (`BoolePolynomial::lead`):
the term that no other term exceeds in the monomial order; requesting it for
the zero polynomial is an error. -/
def lead (p : BoolePolynomial) : Except Failure BooleMonomial :=
  if p = ∅ then .error .illegal_on_zero
  else .ok ((p.filter (fun m => ∀ a ∈ p, ¬ BooleMonomial.lt m a)).sup id)

/-- Modelled from the spec: total degree of a polynomial
(`BoolePolynomial::deg`), the largest degree of a term. -/
def deg (p : BoolePolynomial) : ℤ := ((p.sup Finset.card : ℕ) : ℤ)

/-! ## `pbori_algorithms.h`: the S-polynomial -/

/-- Compute spoly of two polynomials. -/
def spoly (first second : BoolePolynomial) : Except Failure BoolePolynomial := do
  let lead1 ← lead first
  let lead2 ← lead second
  let prod := BooleMonomial.mul lead1 lead2
  let q1 ← BooleMonomial.div prod lead1
  let q2 ← BooleMonomial.div prod lead2
  pure (mulMonomial first q1 + mulMonomial second q2)

/-! ## Decision diagrams and their navigation -/

/-- Modelled from the spec: a node of the external decision diagram as seen
through a navigation cursor (constant test, then/else branch, variable index):
the two constants, or a variable index with a then-branch (the terms that
contain the variable, written without it) and an else-branch (the others). -/
inductive DD where
  | zero : DD
  | one : DD
  | node (idx : ℕ) (thenBranch elseBranch : DD) : DD
  deriving DecidableEq, Repr

/-- The terms of a diagram in the order of its term iterator: the then-branch
is walked before the else-branch; a term is the increasing sequence of the
indices met on its path. -/
def DD.terms : DD → List (List ℕ)
  | .zero => []
  | .one => [[]]
  | .node x t e => (t.terms.map (fun m => x :: m)) ++ e.terms

/-- The monomial whose variables are the listed indices. -/
def monomialOf (t : List ℕ) : BooleMonomial := t.toFinset

/-- The XOR-sum of a list of terms, each given by its index sequence. -/
def sumTerms (l : List (List ℕ)) : BoolePolynomial :=
  (l.map (fun t => ({monomialOf t} : BoolePolynomial))).sum

/-- The polynomial a diagram stands for: the XOR-sum of its terms. -/
def DD.poly (d : DD) : BoolePolynomial := sumTerms d.terms

/-- The terms of a diagram enumerated before the term `t`; in a well-formed
diagram these are the terms strictly greater than `t`. -/
def DD.termsBefore (d : DD) (t : List ℕ) : List (List ℕ) :=
  d.terms.takeWhile (fun s => decide (s ≠ t))

/-- The root index of `d` is larger than `x` (a constant has the largest
index there is). -/
def DD.rootAbove (x : ℕ) : DD → Bool
  | .node y _ _ => decide (x < y)
  | _ => true

/-- Canonical form of the external representation: indices increase strictly
from a node to its branches and no then-branch is the zero constant. -/
def DD.wellFormed : DD → Bool
  | .zero => true
  | .one => true
  | .node x t e =>
      decide (t ≠ .zero) && t.rootAbove x && e.rootAbove x && t.wellFormed && e.wellFormed

/-- Modelled from the spec: `BooleSet(idx, thenNavi, elseNavi)`, the node
constructor of the external representation, which never builds a node whose
then-branch is the zero constant. -/
def BooleSet.mk (idx : ℕ) (thenNavi elseNavi : DD) : DD :=
  if thenNavi = .zero then elseNavi else .node idx thenNavi elseNavi

/-- The loop `while (*navi < *ustart) navi.incrementElse();`.  A constant node
reports the largest index of the diagram library, which no variable index
exceeds, so the loop stops at a constant. -/
def incrementElseWhile (ustart : ℕ) : DD → DD
  | .node x t e => if x < ustart then incrementElseWhile ustart e else .node x t e
  | .zero => .zero
  | .one => .one

/-! ## `pbori_algorithms.h`: term accumulation -/

/-- Source `lower_term_accumulate(navi, lstart, lfinish, init)`; the range
`lstart .. lfinish` is the list of indices still to be read. -/
def lower_term_accumulate : DD → List ℕ → BoolePolynomial → Except Failure DD
  | _, [], _ => .ok .zero
  | .zero, _ :: _, _ => .ok .zero
  | .one, _ :: _, _ => .ok .one
  | .node x t e, l :: ls, init =>
      if l < x then .error .assertion
      else if l > x then do
        let reselse ← lower_term_accumulate e (l :: ls) init
        pure (BooleSet.mk x t reselse)
      else if l ≠ x then .error .assertion
      else do
        let resthen ← lower_term_accumulate t ls init
        pure (BooleSet.mk x resthen .zero)

/-- Source `upper_term_accumulate(ustart, ufinish, navi, init)`.  After the
loop the cursor is asked for its branches; on a constant node that is
undefined. -/
def upper_term_accumulate : List ℕ → DD → BoolePolynomial → Except Failure DD
  | [], _, _ => .ok .one
  | u :: us, navi, init =>
      match incrementElseWhile u navi with
      | .node x t e => do
          let resthen ← upper_term_accumulate us t init
          pure (BooleSet.mk x resthen e)
      | _ => .error .undefined

/-- Source `term_accumulate(ustart, ufinish, navi, lstart, lfinish, init)`, the
overload with six arguments. -/
def term_accumulate6 : List ℕ → DD → List ℕ → BoolePolynomial → Except Failure DD
  | [], _, _, _ => .ok .one
  | u :: us, navi, [], init => upper_term_accumulate (u :: us) navi init
  | u :: us, navi, l :: ls, init =>
      match incrementElseWhile u navi with
      | .zero => .ok .zero
      | .one => .ok .one
      | .node x t e =>
          if l < x then .error .assertion
          else if l > x then do
            let resthen ← upper_term_accumulate us t init
            let reselse ← lower_term_accumulate e (l :: ls) init
            pure (BooleSet.mk x resthen reselse)
          else if l ≠ x then .error .assertion
          else do
            let resthen ← term_accumulate6 us t ls init
            pure (BooleSet.mk x resthen .zero)

/-- Modelled from the spec: a term iterator of the external representation
(`CGenericIter`, not among the sources): the root cursor of the polynomial it
walks and the position reached in the term enumeration; the position equal to
the number of terms is past-the-end. -/
structure TermIter where
  navigation : DD
  pos : ℕ
  deriving DecidableEq, Repr

/-- The term an iterator points at, none past the end. -/
def TermIter.term (it : TermIter) : Option (List ℕ) := it.navigation.terms[it.pos]?

/-- The range `it.begin() .. it.end()`: the indices of the variables of the
current term, empty for the constant term and past the end. -/
def TermIter.indices (it : TermIter) : List ℕ := it.term.getD []

/-- Source `it.isOne()`: the iterator points at the constant term `1`. -/
def TermIter.isOne (it : TermIter) : Bool := decide (it.term = some [])

/-- The call `std::accumulate(first, last, init)`: the terms from `first` up to
but excluding `last` are added to `init` one after the other. -/
def std_accumulate (first last : TermIter) (init : BoolePolynomial) : BoolePolynomial :=
  ((first.navigation.terms.drop first.pos).take (last.pos - first.pos)).foldl
    (fun acc t => acc + ({monomialOf t} : BoolePolynomial)) init

/-- Source `term_accumulate(first, last, init)`: routine for adding all terms
given by iterators. -/
def term_accumulate (first last : TermIter) (init : BoolePolynomial) :
    Except Failure BoolePolynomial :=
  if last.isOne then do
    let upper ← upper_term_accumulate first.indices first.navigation init
    pure (upper.poly + 1)
  else do
    let result ← term_accumulate6 first.indices first.navigation last.indices init
    if result.poly ≠ std_accumulate first last init then .error .assertion
    else pure result.poly

/-! ## Term accumulation under a bound on the nesting of calls -/

/-- The loop `while (*navi < *ustart) navi.incrementElse();` allowed at most
`passes` passes through its body; `none` when a further pass would be needed. -/
def incrementElseWhile_within : ℕ → ℕ → DD → Option DD
  | passes, ustart, .node x t e =>
      if x < ustart then
        match passes with
        | 0 => none
        | p + 1 => incrementElseWhile_within p ustart e
      else some (.node x t e)
  | _, _, .zero => some .zero
  | _, _, .one => some .one

/-- Source `lower_term_accumulate`, run with a bound on the nesting of calls:
`depth` is the number of calls of an accumulation routine that may still be
nested below this call; every call made from the body, to whichever of the
routines, uses up one of them, and the result is `none` when a call would be
needed with none left. -/
def lower_term_accumulate_within :
    ℕ → DD → List ℕ → BoolePolynomial → Option (Except Failure DD)
  | _, _, [], _ => some (.ok .zero)
  | _, .zero, _ :: _, _ => some (.ok .zero)
  | _, .one, _ :: _, _ => some (.ok .one)
  | depth, .node x t e, l :: ls, init =>
      if l < x then some (.error .assertion)
      else if l > x then
        match depth with
        | 0 => none
        | d + 1 =>
            (lower_term_accumulate_within d e (l :: ls) init).map
              (fun res => res >>= fun reselse => pure (BooleSet.mk x t reselse))
      else if l ≠ x then some (.error .assertion)
      else
        match depth with
        | 0 => none
        | d + 1 =>
            (lower_term_accumulate_within d t ls init).map
              (fun res => res >>= fun resthen => pure (BooleSet.mk x resthen .zero))

/-- Source `upper_term_accumulate`, run with the bounds `depth` on the nesting
of calls and `passes` on the passes of each loop. -/
def upper_term_accumulate_within :
    ℕ → ℕ → List ℕ → DD → BoolePolynomial → Option (Except Failure DD)
  | _, _, [], _, _ => some (.ok .one)
  | depth, passes, u :: us, navi, init =>
      match incrementElseWhile_within passes u navi with
      | none => none
      | some (.node x t e) =>
          match depth with
          | 0 => none
          | d + 1 =>
              (upper_term_accumulate_within d passes us t init).map
                (fun res => res >>= fun resthen => pure (BooleSet.mk x resthen e))
      | some _ => some (.error .undefined)

/-- Source `term_accumulate` with six arguments, run with the bounds `depth` on
the nesting of calls and `passes` on the passes of each loop.  Handing over to
`upper_term_accumulate` or `lower_term_accumulate` is a call like any other. -/
def term_accumulate6_within :
    ℕ → ℕ → List ℕ → DD → List ℕ → BoolePolynomial → Option (Except Failure DD)
  | _, _, [], _, _, _ => some (.ok .one)
  | depth, passes, u :: us, navi, [], init =>
      match depth with
      | 0 => none
      | d + 1 => upper_term_accumulate_within d passes (u :: us) navi init
  | depth, passes, u :: us, navi, l :: ls, init =>
      match incrementElseWhile_within passes u navi with
      | none => none
      | some .zero => some (.ok .zero)
      | some .one => some (.ok .one)
      | some (.node x t e) =>
          if l < x then some (.error .assertion)
          else if l > x then
            match depth with
            | 0 => none
            | d + 1 =>
                match upper_term_accumulate_within d passes us t init with
                | none => none
                | some (.error err) => some (.error err)
                | some (.ok resthen) =>
                    (lower_term_accumulate_within d e (l :: ls) init).map
                      (fun res => res >>= fun reselse => pure (BooleSet.mk x resthen reselse))
          else if l ≠ x then some (.error .assertion)
          else
            match depth with
            | 0 => none
            | d + 1 =>
                (term_accumulate6_within d passes us t ls init).map
                  (fun res => res >>= fun resthen => pure (BooleSet.mk x resthen .zero))

/-- Source `term_accumulate(first, last, init)`, run with the bounds `depth` on
the nesting of calls below it and `passes` on the passes of each loop. -/
def term_accumulate_within (depth passes : ℕ) (first last : TermIter)
    (init : BoolePolynomial) : Option (Except Failure BoolePolynomial) :=
  if last.isOne then
    match depth with
    | 0 => none
    | d + 1 =>
        (upper_term_accumulate_within d passes first.indices first.navigation init).map
          (fun res => res >>= fun upper => pure (upper.poly + 1))
  else
    match depth with
    | 0 => none
    | d + 1 =>
        (term_accumulate6_within d passes first.indices first.navigation last.indices init).map
          (fun res => res >>= fun result =>
            if result.poly ≠ std_accumulate first last init then .error .assertion
            else pure result.poly)

/-- Every variable index of the diagram is below `n`: the diagram of a
polynomial over `n` ring variables. -/
def DD.indicesBelow (n : ℕ) : DD → Bool
  | .zero => true
  | .one => true
  | .node x t e => decide (x < n) && t.indicesBelow n && e.indicesBelow n

/-- The root index of `d` is at least `k` (a constant has the largest index
there is). -/
def DD.rootAtLeast (k : ℕ) : DD → Bool
  | .node x _ _ => decide (k ≤ x)
  | _ => true

/-- The term `s` is less than or equal to the term `t` in the monomial order:
`s` is not greater than `t`. -/
def termLe (s t : List ℕ) : Bool := decide (¬ BooleMonomial.lt (monomialOf t) (monomialOf s))

/-! ## Reduction by generators -/

/-- Modelled from the spec: one elimination step of `normalForm` (class
`ReductionStrategy`, not among the sources): a term `t` of `p` that the lead
monomial of the generator `h` divides is eliminated by XOR-adding the product
of `h` with the cofactor monomial `t / lead h`. -/
def eliminateTerm (h : BoolePolynomial) (t : BooleMonomial) (p : BoolePolynomial) :
    Except Failure BoolePolynomial := do
  let lm ← lead h
  let cofactor ← BooleMonomial.div t lm
  if t ∈ p then pure (p + mulMonomial h cofactor) else .error .undefined

/-- Modelled from the spec: `normalForm` performs such steps "while some
generator's lead monomial divides a term of the polynomial"; which generator
and which term come first is left open, so a single step is a relation. -/
def NormalFormStep (G : List BoolePolynomial) (p q : BoolePolynomial) : Prop :=
  ∃ h ∈ G, ∃ t ∈ p, eliminateTerm h t p = .ok q

/-- The polynomial `p` reduces to `q` against the generators `G`: some finite
sequence of elimination steps leads from `p` to `q`. -/
def ReducesTo (G : List BoolePolynomial) (p q : BoolePolynomial) : Prop :=
  Relation.ReflTransGen (NormalFormStep G) p q

/-! ## `PairLS.h`: critical pairs -/

/-- Tag of a pair "variable times generator" (first enumerator). -/
def VARIABLE_PAIR : ℤ := 0

/-- Tag of a pair of two generators (second enumerator). -/
def IJ_PAIR : ℤ := 1

/-- Tag of a polynomial waiting for integration (third enumerator). -/
def DELAYED_PAIR : ℤ := 2

/-- Modelled from the spec: a generator entry (class `PolyEntry`, not among the
sources) with its cached statistics.  The integer fields are the machine
integers of the source, taken without overflow. -/
structure PolyEntry where
  p : BoolePolynomial
  lead : BooleMonomial
  deg : ℤ
  leadDeg : ℤ
  length : ℤ
  weightedLength : ℤ

/-- Modelled from the spec: `ecart = degree − (degree of lead monomial)`. -/
def PolyEntry.ecart (e : PolyEntry) : ℤ := e.deg - e.leadDeg

/-- Modelled from the spec: the cached statistics of an entry agree with its
polynomial: `lead` is the lead monomial, `deg` the total degree, and
`ecart = deg − degree(lead)`. -/
def PolyEntry.consistent (e : PolyEntry) : Prop :=
  PBoRi.lead e.p = .ok e.lead ∧ e.deg = PBoRi.deg e.p ∧ e.ecart = e.deg - BooleMonomial.deg e.lead

instance PolyEntry.decidableConsistent (e : PolyEntry) : Decidable e.consistent := by
  unfold PolyEntry.consistent; infer_instance

/-- The payload of a pair (`IJPairData`, `VariablePairData`, `PolyPairData`). -/
inductive PairData where
  | IJPairData (i j : ℕ) : PairData
  | VariablePairData (i : ℕ) (v : ℕ) : PairData
  | PolyPairData (delayed : BoolePolynomial) : PairData

/-- Source `class PairLS`: the data members in their order of declaration. -/
structure PairLS where
  type : ℤ
  wlen : ℤ
  sugar : ℤ
  data : PairData
  lm : BooleMonomial

/-- Source `PairLS::getType`. -/
def PairLS.getType (s : PairLS) : ℤ := s.type

/-- The access `v[i]` to an entry vector; outside the vector it is undefined. -/
def entryAt (v : List PolyEntry) (i : ℕ) : Except Failure PolyEntry :=
  match v[i]? with
  | some e => .ok e
  | none => .error .undefined

/-- The types `deg_type` and `wlen_type` of the source are signed machine
integers; their typedefs are not among the sources, so their widths in bits
enter as parameters.  `wrapSigned bits z` is the value held by such an integer
of `bits` bits after an operation with the exact result `z`: `z` reduced modulo
`2 ^ bits` into the range from `-(2 ^ bits / 2)` up to, excluding,
`2 ^ bits / 2`. -/
def wrapSigned (bits : ℕ) (z : ℤ) : ℤ :=
  (z + 2 ^ bits / 2) % 2 ^ bits - 2 ^ bits / 2

/-- The integer `z` is representable in a signed machine integer of `bits`
bits. -/
def fitsSigned (bits : ℕ) (z : ℤ) : Prop :=
  -(2 ^ bits / 2) ≤ z ∧ z < 2 ^ bits / 2

instance fitsSigned.decidable (bits : ℕ) (z : ℤ) : Decidable (fitsSigned bits z) := by
  unfold fitsSigned; infer_instance

/-- Source `PairLS::PairLS(int i, int j, const PolyEntryVector &v)` with the
sums taken in ℤ: the fields as long as no machine integer of the source
overflows (`PairLS.ofIJ_machine` gives them with the arithmetic of the
source). -/
def PairLS.ofIJ (i j : ℕ) (v : List PolyEntry) : Except Failure PairLS := do
  let vi ← entryAt v i
  let vj ← entryAt v j
  let lm := BooleMonomial.mul vi.lead vj.lead
  pure
    ({ data := .IJPairData i j
       lm := lm
       wlen := vi.weightedLength + vj.weightedLength - 2
       type := IJ_PAIR
       sugar := BooleMonomial.deg lm + max vi.ecart vj.ecart } : PairLS)

/-- Source `PairLS::PairLS(int i, int j, const PolyEntryVector &v)` with the
arithmetic of the source: `wlen` is computed in `wlen_type` (of `wlenBits`
bits) and `sugar` in `deg_type` (of `degBits` bits), every operation reducing
its result to the range of its type; `lm.deg()` and the values of `ecart()` are
taken as the external classes return them. -/
def PairLS.ofIJ_machine (degBits wlenBits : ℕ) (i j : ℕ) (v : List PolyEntry) :
    Except Failure PairLS := do
  let vi ← entryAt v i
  let vj ← entryAt v j
  let lm := BooleMonomial.mul vi.lead vj.lead
  pure
    ({ data := .IJPairData i j
       lm := lm
       wlen := wrapSigned wlenBits
         (wrapSigned wlenBits (vi.weightedLength + vj.weightedLength) - 2)
       type := IJ_PAIR
       sugar := wrapSigned degBits (BooleMonomial.deg lm + max vi.ecart vj.ecart) } : PairLS)

/-- Source `PairLS::PairLS(const Polynomial& delayed)`.  The elimination length
of a polynomial is computed by the external representation and enters as the
function `eliminationLength`. -/
def PairLS.ofDelayed (eliminationLength : BoolePolynomial → ℤ) (delayed : BoolePolynomial) :
    Except Failure PairLS := do
  let lm ← lead delayed
  pure
    ({ data := .PolyPairData delayed
       lm := lm
       sugar := deg delayed
       wlen := eliminationLength delayed
       type := DELAYED_PAIR } : PairLS)

/-! ## `GroebnerStrategy.h`: ring check -/

/-- Modelled from the spec: a ring/ordering context (class `BoolePolyRing`, not
among the sources), known here by its identifier `id()`. -/
structure BoolePolyRing where
  id : ℕ
  deriving DecidableEq, Repr

/-- A polynomial together with the ring it belongs to (`Polynomial::ring()`). -/
structure Polynomial where
  ring : BoolePolyRing
  value : BoolePolynomial

/-- Source `class GroebnerStrategy`, reduced to the data member `r` that
`sameRing` reads. -/
structure GroebnerStrategy where
  r : BoolePolyRing

/-- Source `GroebnerStrategy::sameRing(start, finish)`; the range is the list of
the polynomials from `start` up to `finish`. -/
def GroebnerStrategy.sameRing (s : GroebnerStrategy) : List Polynomial → Bool
  | [] => true
  | start :: rest => if s.r.id ≠ start.ring.id then false else s.sameRing rest

/-- Source `PolyEntryPtrLmLess::operator()`: `lhs->lead < rhs->lead`, the
comparison of the two lead monomials in the monomial order. -/
def PolyEntryPtrLmLess (lhs rhs : PolyEntry) : Bool :=
  decide (BooleMonomial.lt lhs.lead rhs.lead)

/-- Two entries are equivalent for the comparison: neither is less than the
other. -/
def PolyEntryPtrLmLess.equiv (a b : PolyEntry) : Bool :=
  !PolyEntryPtrLmLess a b && !PolyEntryPtrLmLess b a

/-- Insertion into `entryset_type`, that is
`std::set<const PolyEntry*, PolyEntryPtrLmLess>`: the elements are kept in
increasing order of the comparison, and an element equivalent to one already
present is not inserted. -/
def entryset_insert (s : List PolyEntry) (e : PolyEntry) : List PolyEntry :=
  if s.any (fun x => PolyEntryPtrLmLess.equiv x e) then s
  else s.takeWhile (fun x => PolyEntryPtrLmLess x e) ++
    e :: s.dropWhile (fun x => PolyEntryPtrLmLess x e)

/-- The `entryset_type` obtained by inserting the entries of `l` one after the
other into the empty set. -/
def entryset_of (l : List PolyEntry) : List PolyEntry :=
  l.foldl entryset_insert []

/-! ## Sample data and auxiliary notions for the statements below -/

/-- An entry vector used to instantiate the statements about pairs:
`x0 + x1` and `x1*x2 + 1`. -/
def sampleEntries : List PolyEntry :=
  [ { p := {{0}, {1}}, lead := {0}, deg := 1, leadDeg := 1, length := 2, weightedLength := 2 },
    { p := {{1, 2}, ∅}, lead := {1, 2}, deg := 2, leadDeg := 2, length := 2,
      weightedLength := 3 } ]

/-- The diagram of `x0*x1 + x0`. -/
def diagramA : DD := .node 0 (.node 1 .one .one) .zero

/-- The diagram of `x0`. -/
def diagramB : DD := .node 0 .one .zero

/-- The diagram of `x1*x2 + x1`. -/
def diagramC : DD := .node 1 (.node 2 .one .one) .zero

/-- The generator `x0 + x1 + 1`, with lead `x0`. -/
def generatorF : BoolePolynomial := {{0}, {1}, ∅}

/-- The generator `x1*x2 + 1`, with lead `x1*x2`. -/
def generatorG : BoolePolynomial := {{1, 2}, ∅}

/-- The polynomials reachable from `spoly generatorF generatorG = x0` by
elimination steps: `x0` itself and `x1 + 1`. -/
def reachableFG : Finset BoolePolynomial := {{{0}}, {{1}, ∅}}

/-- The outcome of an elimination step is either a failure or a member of `R`. -/
def staysIn (R : Finset BoolePolynomial) : Except Failure BoolePolynomial → Prop
  | .ok q => q ∈ R
  | .error _ => True

instance staysIn.decidable (R : Finset BoolePolynomial)
    (r : Except Failure BoolePolynomial) : Decidable (staysIn R r) :=
  match r with
  | .ok q => inferInstanceAs (Decidable (q ∈ R))
  | .error _ => isTrue trivial

/-- The situation of the product criterion: `lf` and `lg` are the leads of `f`
and `g`, they share no variable, and no variable of one lead occurs in a
non-leading term of the other polynomial. -/
structure ProductSetting (f g : BoolePolynomial) (lf lg : BooleMonomial) : Prop where
  lead_f : lead f = .ok lf
  lead_g : lead g = .ok lg
  coprime : Disjoint lf lg
  tail_f : ∀ a ∈ f, a ≠ lf → Disjoint a lg
  tail_g : ∀ b ∈ g, b ≠ lg → Disjoint b lf

/-- The combination `Σ_{s ∈ u} s * g + Σ_{r ∈ v} r * f` of the generators with
the terms of `u` and `v` as cofactors. -/
def partialSum (f g : BoolePolynomial) (u v : Finset BooleMonomial) : BoolePolynomial :=
  ∑ s in u, mulMonomial g s + ∑ r in v, mulMonomial f r

/-! # Properties -/

/-! ## Sequencing of fallible steps -/

theorem ok_bind {α β : Type} (a : α) (f : α → Except Failure β) :
    (Except.ok a >>= f) = f a := rfl

theorem error_bind {α β : Type} (e : Failure) (f : α → Except Failure β) :
    ((Except.error e : Except Failure α) >>= f) = Except.error e := rfl

/-! ## Monomial arithmetic -/

theorem BooleMonomial.divides_iff_subset (a b : BooleMonomial) :
    BooleMonomial.divides a b ↔ a ⊆ b := by
  constructor
  · rintro ⟨c, rfl⟩
    exact Finset.subset_union_left
  · intro h
    exact ⟨b, Finset.union_eq_right.mpr h⟩

theorem BooleMonomial.isLcm_mul (a b : BooleMonomial) :
    BooleMonomial.isLcm (BooleMonomial.mul a b) a b := by
  refine ⟨?_, ?_, ?_⟩
  · exact (BooleMonomial.divides_iff_subset _ _).mpr Finset.subset_union_left
  · exact (BooleMonomial.divides_iff_subset _ _).mpr Finset.subset_union_right
  · intro c ha hb
    rw [BooleMonomial.divides_iff_subset] at ha hb ⊢
    exact Finset.union_subset ha hb

theorem BooleMonomial.div_mul_left (a b : BooleMonomial) :
    BooleMonomial.div (BooleMonomial.mul a b) a = .ok (b \ a) ∧
      BooleMonomial.mul (b \ a) a = BooleMonomial.mul a b := by
  constructor
  · have h : a ⊆ a ∪ b := Finset.subset_union_left
    simp [BooleMonomial.div, BooleMonomial.mul, h, Finset.union_sdiff_left]
  · simp [BooleMonomial.mul, Finset.union_comm]

theorem BooleMonomial.div_mul_right (a b : BooleMonomial) :
    BooleMonomial.div (BooleMonomial.mul a b) b = .ok (a \ b) ∧
      BooleMonomial.mul (a \ b) b = BooleMonomial.mul a b := by
  constructor
  · have h : b ⊆ a ∪ b := Finset.subset_union_right
    simp [BooleMonomial.div, BooleMonomial.mul, h, Finset.union_sdiff_right]
  · simp [BooleMonomial.mul]

theorem lead_ok_of_ne_zero (p : BoolePolynomial) (hp : p ≠ 0) :
    ∃ m : BooleMonomial, lead p = .ok m := by
  have h : ¬ p = ∅ := hp
  unfold lead
  rw [if_neg h]
  exact ⟨_, rfl⟩

/-! ## The monomial order -/

theorem BooleMonomial.lt_irrefl (a : BooleMonomial) : ¬ BooleMonomial.lt a a := by
  rintro ⟨k, hk, hk2, _⟩
  exact hk2 hk

theorem BooleMonomial.lt_trans {a b c : BooleMonomial} (hab : BooleMonomial.lt a b)
    (hbc : BooleMonomial.lt b c) : BooleMonomial.lt a c := by
  obtain ⟨k1, hk1b, hk1a, h1⟩ := hab
  obtain ⟨k2, hk2c, hk2b, h2⟩ := hbc
  rcases Nat.lt_trichotomy k1 k2 with h | h | h
  · refine ⟨k1, (h2 k1 h).mp hk1b, hk1a, fun j hj => ?_⟩
    exact (h1 j hj).trans (h2 j (Nat.lt_trans hj h))
  · subst h
    exact absurd hk1b hk2b
  · refine ⟨k2, hk2c, fun hk => hk2b ((h1 k2 h).mp hk), fun j hj => ?_⟩
    exact (h1 j (Nat.lt_trans hj h)).trans (h2 j hj)

theorem BooleMonomial.lt_or_lt_of_ne {a b : BooleMonomial} (hab : a ≠ b) :
    BooleMonomial.lt a b ∨ BooleMonomial.lt b a := by
  have hex : ∃ k, ¬ (k ∈ a ↔ k ∈ b) := by
    by_contra hno
    push_neg at hno
    exact hab (Finset.ext hno)
  have hmin : ∀ j, j < Nat.find hex → (j ∈ a ↔ j ∈ b) := fun j hj =>
    not_not.mp (Nat.find_min hex hj)
  have hk := Nat.find_spec hex
  by_cases hka : Nat.find hex ∈ a
  · right
    refine ⟨Nat.find hex, hka, fun hkb => hk ⟨fun _ => hkb, fun _ => hka⟩, fun j hj => ?_⟩
    exact (hmin j hj).symm
  · left
    have hkb : Nat.find hex ∈ b := by
      by_contra hkb
      exact hk ⟨fun h => absurd h hka, fun h => absurd h hkb⟩
    exact ⟨Nat.find hex, hkb, hka, hmin⟩

theorem BooleMonomial.lt_union_left {r m s : BooleMonomial} (h : BooleMonomial.lt r m)
    (hs : Disjoint s m) : BooleMonomial.lt (r ∪ s) (m ∪ s) := by
  obtain ⟨k, hkm, hkr, hj⟩ := h
  have hks : k ∉ s := fun hks => (Finset.disjoint_left.mp hs hks) hkm
  refine ⟨k, Finset.mem_union_left _ hkm, ?_, fun j hjk => ?_⟩
  · simp [hkr, hks]
  · simp [hj j hjk]

theorem BooleMonomial.not_lt_of_subset {m s : BooleMonomial} (h : m ⊆ s) :
    ¬ BooleMonomial.lt s m := by
  rintro ⟨k, hkm, hks, _⟩
  exact hks (h hkm)

theorem exists_maximal_term (T : Finset BooleMonomial) (hT : T.Nonempty) :
    ∃ m ∈ T, ∀ c ∈ T, ¬ BooleMonomial.lt m c := by
  induction T using Finset.induction_on with
  | empty => exact absurd hT Finset.not_nonempty_empty
  | insert ha ih =>
    rename_i a T'
    by_cases hT' : T'.Nonempty
    · obtain ⟨m, hm, hmax⟩ := ih hT'
      by_cases hma : BooleMonomial.lt m a
      · refine ⟨a, Finset.mem_insert_self _ _, fun c hc => ?_⟩
        rcases Finset.mem_insert.mp hc with rfl | hc
        · exact BooleMonomial.lt_irrefl _
        · exact fun hac => hmax c hc (BooleMonomial.lt_trans hma hac)
      · refine ⟨m, Finset.mem_insert_of_mem hm, fun c hc => ?_⟩
        rcases Finset.mem_insert.mp hc with rfl | hc
        · exact hma
        · exact hmax c hc
    · rw [Finset.not_nonempty_iff_eq_empty] at hT'
      subst hT'
      refine ⟨a, Finset.mem_insert_self _ _, fun c hc => ?_⟩
      rcases Finset.mem_insert.mp hc with rfl | hc
      · exact BooleMonomial.lt_irrefl _
      · exact absurd hc (Finset.not_mem_empty _)

theorem lead_spec {p : BoolePolynomial} {m : BooleMonomial} (h : lead p = .ok m) :
    m ∈ p ∧ ∀ a ∈ p, a ≠ m → BooleMonomial.lt a m := by
  unfold lead at h
  by_cases hp : p = ∅
  · rw [if_pos hp] at h
    exact Except.noConfusion h
  · rw [if_neg hp] at h
    obtain ⟨m0, hm0, hmax⟩ := exists_maximal_term p (Finset.nonempty_iff_ne_empty.mpr hp)
    have hF : p.filter (fun m => ∀ a ∈ p, ¬ BooleMonomial.lt m a) = {m0} := by
      ext x
      simp only [Finset.mem_filter, Finset.mem_singleton]
      constructor
      · rintro ⟨hx, hxmax⟩
        by_contra hne
        rcases BooleMonomial.lt_or_lt_of_ne hne with h1 | h1
        · exact hxmax m0 hm0 h1
        · exact hmax x hx h1
      · rintro rfl
        exact ⟨hm0, hmax⟩
    rw [hF, Finset.sup_singleton] at h
    have hm : m0 = m := Except.ok.inj h
    subst hm
    refine ⟨hm0, fun a ha hne => ?_⟩
    rcases BooleMonomial.lt_or_lt_of_ne hne with h1 | h1
    · exact h1
    · exact absurd h1 (hmax a ha)

/-! ## Sums of polynomials -/

theorem BoolePolynomial.mem_add {p q : BoolePolynomial} {x : BooleMonomial} :
    x ∈ p + q ↔ (x ∈ p ∧ x ∉ q) ∨ (x ∈ q ∧ x ∉ p) :=
  Finset.mem_symmDiff

theorem BoolePolynomial.add_self (p : BoolePolynomial) : p + p = 0 :=
  symmDiff_self p

theorem BoolePolynomial.add_cancel_left (p q : BoolePolynomial) : p + (p + q) = q := by
  rw [← add_assoc, BoolePolynomial.add_self, zero_add]

theorem BoolePolynomial.mem_sum {ι : Type} [DecidableEq ι] (I : Finset ι)
    (F : ι → BoolePolynomial) (x : BooleMonomial) (hx : x ∈ ∑ i in I, F i) :
    ∃ i ∈ I, x ∈ F i := by
  induction I using Finset.induction_on with
  | empty => exact absurd hx (Finset.not_mem_empty x)
  | insert ha ih =>
    rename_i a I'
    rw [Finset.sum_insert ha] at hx
    rcases BoolePolynomial.mem_add.mp hx with ⟨h, _⟩ | ⟨h, _⟩
    · exact ⟨a, Finset.mem_insert_self _ _, h⟩
    · obtain ⟨i, hi, hxi⟩ := ih h
      exact ⟨i, Finset.mem_insert_of_mem hi, hxi⟩

theorem mem_mulMonomial {p : BoolePolynomial} {c x : BooleMonomial}
    (hx : x ∈ mulMonomial p c) : ∃ a ∈ p, x = a ∪ c := by
  obtain ⟨a, ha, hxa⟩ := BoolePolynomial.mem_sum p _ x hx
  exact ⟨a, ha, Finset.mem_singleton.mp hxa⟩

theorem mulMonomial_eq_lead_add {p : BoolePolynomial} {m : BooleMonomial} (hm : m ∈ p)
    (c : BooleMonomial) :
    mulMonomial p c = {m ∪ c} + mulMonomial (p.erase m) c := by
  unfold mulMonomial
  exact (Finset.add_sum_erase p (fun a => ({BooleMonomial.mul a c} : BoolePolynomial)) hm).symm

/-- The terms of `p * c` lie at or below `lead p * c` when `c` shares no
variable with the lead. -/
theorem mulMonomial_le_lead {p : BoolePolynomial} {m c x : BooleMonomial}
    (hlt : ∀ a ∈ p, a ≠ m → BooleMonomial.lt a m) (hc : Disjoint c m)
    (hx : x ∈ mulMonomial p c) : x = m ∪ c ∨ BooleMonomial.lt x (m ∪ c) := by
  obtain ⟨a, ha, rfl⟩ := mem_mulMonomial hx
  by_cases ham : a = m
  · left; rw [ham]
  · right; exact BooleMonomial.lt_union_left (hlt a ha ham) hc

theorem mulMonomial_erase_lt_lead {p : BoolePolynomial} {m c x : BooleMonomial}
    (hlt : ∀ a ∈ p, a ≠ m → BooleMonomial.lt a m) (hc : Disjoint c m)
    (hx : x ∈ mulMonomial (p.erase m) c) : BooleMonomial.lt x (m ∪ c) := by
  obtain ⟨a, ha, rfl⟩ := mem_mulMonomial hx
  exact BooleMonomial.lt_union_left (hlt a (Finset.mem_of_mem_erase ha)
    (Finset.ne_of_mem_erase ha)) hc

/-- Summing `g * a` over the terms `a` of `f` gives the same as summing
`f * b` over the terms `b` of `g`: both are the product of `f` and `g`. -/
theorem sum_mulMonomial_comm (f g : BoolePolynomial) :
    ∑ a in f, mulMonomial g a = ∑ b in g, mulMonomial f b := by
  unfold mulMonomial
  rw [Finset.sum_comm]
  refine Finset.sum_congr rfl (fun b _ => Finset.sum_congr rfl (fun a _ => ?_))
  simp [BooleMonomial.mul, Finset.union_comm]

/-! ## Entry vectors -/

theorem entryAt_of_lt (v : List PolyEntry) (i : ℕ) (hi : i < v.length) :
    entryAt v i = .ok v[i] := by
  simp [entryAt, List.getElem?_eq_getElem hi]

theorem PairLS.ofIJ_ok (v : List PolyEntry) (i j : ℕ) (hi : i < v.length)
    (hj : j < v.length) :
    PairLS.ofIJ i j v = .ok
      { data := .IJPairData i j
        lm := BooleMonomial.mul v[i].lead v[j].lead
        wlen := v[i].weightedLength + v[j].weightedLength - 2
        type := IJ_PAIR
        sugar := BooleMonomial.deg (BooleMonomial.mul v[i].lead v[j].lead)
          + max v[i].ecart v[j].ecart } := by
  simp [PairLS.ofIJ, entryAt_of_lt, hi, hj]
  rfl

/-! ## The S-polynomial -/

/-- C2: for non-zero `first` and `second`, `spoly first second` is
`first * (L / lead first) + second * (L / lead second)` where the product
`L = lead first * lead second` formed by the code is a least common multiple of
the two leads and both divisions are exact. -/
theorem spoly_eq_lcm_combination (first second : BoolePolynomial)
    (h1 : first ≠ 0) (h2 : second ≠ 0) :
    ∃ lead1 lead2 q1 q2 : BooleMonomial,
      lead first = .ok lead1 ∧ lead second = .ok lead2 ∧
      BooleMonomial.isLcm (BooleMonomial.mul lead1 lead2) lead1 lead2 ∧
      BooleMonomial.div (BooleMonomial.mul lead1 lead2) lead1 = .ok q1 ∧
      BooleMonomial.mul q1 lead1 = BooleMonomial.mul lead1 lead2 ∧
      BooleMonomial.div (BooleMonomial.mul lead1 lead2) lead2 = .ok q2 ∧
      BooleMonomial.mul q2 lead2 = BooleMonomial.mul lead1 lead2 ∧
      spoly first second = .ok (mulMonomial first q1 + mulMonomial second q2) := by
  obtain ⟨lead1, hl1⟩ := lead_ok_of_ne_zero first h1
  obtain ⟨lead2, hl2⟩ := lead_ok_of_ne_zero second h2
  obtain ⟨hd1, hm1⟩ := BooleMonomial.div_mul_left lead1 lead2
  obtain ⟨hd2, hm2⟩ := BooleMonomial.div_mul_right lead1 lead2
  refine ⟨lead1, lead2, lead2 \ lead1, lead1 \ lead2, hl1, hl2,
    BooleMonomial.isLcm_mul lead1 lead2, hd1, hm1, hd2, hm2, ?_⟩
  simp only [spoly, hl1, hl2, ok_bind, hd1, hd2]
  rfl

theorem spoly_eq_lcm_combination_witness :
    ∃ lead1 lead2 q1 q2 : BooleMonomial,
      lead ({{0}, {1}} : BoolePolynomial) = .ok lead1 ∧
      lead ({{1, 2}, ∅} : BoolePolynomial) = .ok lead2 ∧
      BooleMonomial.isLcm (BooleMonomial.mul lead1 lead2) lead1 lead2 ∧
      BooleMonomial.div (BooleMonomial.mul lead1 lead2) lead1 = .ok q1 ∧
      BooleMonomial.mul q1 lead1 = BooleMonomial.mul lead1 lead2 ∧
      BooleMonomial.div (BooleMonomial.mul lead1 lead2) lead2 = .ok q2 ∧
      BooleMonomial.mul q2 lead2 = BooleMonomial.mul lead1 lead2 ∧
      spoly ({{0}, {1}} : BoolePolynomial) {{1, 2}, ∅}
        = .ok (mulMonomial {{0}, {1}} q1 + mulMonomial {{1, 2}, ∅} q2) :=
  spoly_eq_lcm_combination {{0}, {1}} {{1, 2}, ∅} (by decide) (by decide)

/-! ## The constructors of `PairLS` -/

/-- C3: for valid positions `i`, `j` the lead key `lm` of the index pair
`PairLS(i, j, v)` is a least common multiple of `v[i].lead` and `v[j].lead`:
both divide `lm`, and `lm` divides every monomial that both divide. -/
theorem PairLS_ofIJ_lm_isLcm (v : List PolyEntry) (i j : ℕ) (hi : i < v.length)
    (hj : j < v.length) :
    ∃ s : PairLS, PairLS.ofIJ i j v = .ok s ∧
      BooleMonomial.divides v[i].lead s.lm ∧ BooleMonomial.divides v[j].lead s.lm ∧
      ∀ c : BooleMonomial, BooleMonomial.divides v[i].lead c →
        BooleMonomial.divides v[j].lead c → BooleMonomial.divides s.lm c :=
  ⟨_, PairLS.ofIJ_ok v i j hi hj, BooleMonomial.isLcm_mul v[i].lead v[j].lead⟩

theorem PairLS_ofIJ_lm_isLcm_witness :
    ∃ s : PairLS, PairLS.ofIJ 0 1 sampleEntries = .ok s ∧
      BooleMonomial.divides ({0} : BooleMonomial) s.lm ∧
      BooleMonomial.divides ({1, 2} : BooleMonomial) s.lm ∧
      ∀ c : BooleMonomial, BooleMonomial.divides ({0} : BooleMonomial) c →
        BooleMonomial.divides ({1, 2} : BooleMonomial) c → BooleMonomial.divides s.lm c :=
  PairLS_ofIJ_lm_isLcm sampleEntries 0 1 (by decide) (by decide)

/-- C9: for a non-zero polynomial `p` the delayed pair `PairLS(p)` has
`getType() == DELAYED_PAIR`, `lm == p.lead()`, `sugar == p.deg()` and
`wlen == p.eliminationLength()`; the three tags `VARIABLE_PAIR`, `IJ_PAIR`
and `DELAYED_PAIR` are pairwise distinct. -/
theorem PairLS_ofDelayed_fields (eliminationLength : BoolePolynomial → ℤ)
    (p : BoolePolynomial) (hp : p ≠ 0) :
    (∃ s : PairLS, PairLS.ofDelayed eliminationLength p = .ok s ∧
      s.getType = DELAYED_PAIR ∧ lead p = .ok s.lm ∧ s.sugar = deg p ∧
      s.wlen = eliminationLength p) ∧
    VARIABLE_PAIR ≠ IJ_PAIR ∧ VARIABLE_PAIR ≠ DELAYED_PAIR ∧ IJ_PAIR ≠ DELAYED_PAIR := by
  obtain ⟨m, hm⟩ := lead_ok_of_ne_zero p hp
  refine ⟨⟨{ data := .PolyPairData p, lm := m, sugar := deg p,
             wlen := eliminationLength p, type := DELAYED_PAIR }, ?_, rfl, hm, rfl, rfl⟩,
    by decide, by decide, by decide⟩
  simp only [PairLS.ofDelayed, hm, ok_bind]
  rfl

theorem PairLS_ofDelayed_fields_witness :
    (∃ s : PairLS, PairLS.ofDelayed (fun q => (q.card : ℤ)) {{1, 2}, ∅} = .ok s ∧
      s.getType = DELAYED_PAIR ∧ lead ({{1, 2}, ∅} : BoolePolynomial) = .ok s.lm ∧
      s.sugar = deg ({{1, 2}, ∅} : BoolePolynomial) ∧
      s.wlen = (fun q : BoolePolynomial => (q.card : ℤ)) {{1, 2}, ∅}) ∧
    VARIABLE_PAIR ≠ IJ_PAIR ∧ VARIABLE_PAIR ≠ DELAYED_PAIR ∧ IJ_PAIR ≠ DELAYED_PAIR :=
  PairLS_ofDelayed_fields (fun q => (q.card : ℤ)) {{1, 2}, ∅} (by decide)

/-! ## The constructors of `PairLS` with the arithmetic of the source -/

/-! ## Machine integers -/

theorem wrapSigned_of_fits {bits : ℕ} {z : ℤ} (h : fitsSigned bits z) :
    wrapSigned bits z = z := by
  obtain ⟨h1, h2⟩ := h
  unfold wrapSigned
  have hpos : (0 : ℤ) < 2 ^ bits := by positivity
  have hhalf : 2 * ((2 : ℤ) ^ bits / 2) ≤ 2 ^ bits := Int.mul_ediv_self_le (by norm_num)
  rw [Int.emod_eq_of_lt (by omega) (by omega)]
  omega

theorem wrapSigned_wrapSigned_add (bits : ℕ) (x y : ℤ) :
    wrapSigned bits (wrapSigned bits x + y) = wrapSigned bits (x + y) := by
  unfold wrapSigned
  have : (x + 2 ^ bits / 2) % 2 ^ bits - 2 ^ bits / 2 + y + 2 ^ bits / 2
      = (x + 2 ^ bits / 2) % 2 ^ bits + y := by ring
  rw [this, Int.emod_add_emod]
  congr 2
  ring

theorem PairLS.ofIJ_machine_ok (degBits wlenBits : ℕ) (v : List PolyEntry) (i j : ℕ)
    (hi : i < v.length) (hj : j < v.length) :
    PairLS.ofIJ_machine degBits wlenBits i j v = .ok
      { data := .IJPairData i j
        lm := BooleMonomial.mul v[i].lead v[j].lead
        wlen := wrapSigned wlenBits (v[i].weightedLength + v[j].weightedLength - 2)
        type := IJ_PAIR
        sugar := wrapSigned degBits
          (BooleMonomial.deg (BooleMonomial.mul v[i].lead v[j].lead)
            + max v[i].ecart v[j].ecart) } := by
  have hw : wrapSigned wlenBits
      (wrapSigned wlenBits (v[i].weightedLength + v[j].weightedLength) - 2)
      = wrapSigned wlenBits (v[i].weightedLength + v[j].weightedLength - 2) := by
    rw [sub_eq_add_neg, wrapSigned_wrapSigned_add, ← sub_eq_add_neg]
  unfold PairLS.ofIJ_machine
  rw [entryAt_of_lt v i hi, entryAt_of_lt v j hj, ok_bind, ok_bind, hw]
  rfl

/-- Without overflow the constructor with the arithmetic of the source gives
the pair computed in ℤ. -/
theorem PairLS.ofIJ_machine_eq_ofIJ (degBits wlenBits : ℕ) (v : List PolyEntry) (i j : ℕ)
    (hi : i < v.length) (hj : j < v.length)
    (hs : fitsSigned degBits
      (BooleMonomial.deg (BooleMonomial.mul v[i].lead v[j].lead) + max v[i].ecart v[j].ecart))
    (hw : fitsSigned wlenBits (v[i].weightedLength + v[j].weightedLength - 2)) :
    PairLS.ofIJ_machine degBits wlenBits i j v = PairLS.ofIJ i j v := by
  rw [PairLS.ofIJ_machine_ok degBits wlenBits v i j hi hj, PairLS.ofIJ_ok v i j hi hj,
    wrapSigned_of_fits hs, wrapSigned_of_fits hw]

theorem GroebnerStrategy.sameRing_iff (s : GroebnerStrategy) (l : List Polynomial) :
    s.sameRing l = true ↔ ∀ p ∈ l, p.ring.id = s.r.id := by
  induction l with
  | nil => simp [GroebnerStrategy.sameRing]
  | cons a rest ih =>
    by_cases h : s.r.id = a.ring.id
    · simp [GroebnerStrategy.sameRing, h, ih]
    · have h2 : ¬ a.ring.id = s.r.id := fun e => h e.symm
      simp [GroebnerStrategy.sameRing, h, h2]

/-- C6: `sameRing(start, finish)` returns true if and only if every polynomial
of the range has the ring identifier of the strategy; it returns true for the
empty range and false when a polynomial of another ring is present. -/
theorem sameRing_true_iff_all_same (s : GroebnerStrategy) (l : List Polynomial) :
    (s.sameRing l = true ↔ ∀ p ∈ l, p.ring.id = s.r.id) ∧
    s.sameRing [] = true ∧
    ((∃ p ∈ l, p.ring.id ≠ s.r.id) → s.sameRing l = false) := by
  refine ⟨GroebnerStrategy.sameRing_iff s l, rfl, ?_⟩
  rintro ⟨p, hp, hne⟩
  cases hres : s.sameRing l with
  | false => rfl
  | true => exact absurd ((GroebnerStrategy.sameRing_iff s l).mp hres p hp) hne

theorem sameRing_true_iff_all_same_witness :
    GroebnerStrategy.sameRing ⟨⟨1⟩⟩ [⟨⟨1⟩, 0⟩, ⟨⟨2⟩, {{0}}⟩] = false :=
  (sameRing_true_iff_all_same ⟨⟨1⟩⟩ [⟨⟨1⟩, 0⟩, ⟨⟨2⟩, {{0}}⟩]).2.2
    ⟨⟨⟨2⟩, {{0}}⟩, by simp, by decide⟩

/-! ## The product criterion -/

theorem ProductSetting.symm {f g : BoolePolynomial} {lf lg : BooleMonomial}
    (h : ProductSetting f g lf lg) : ProductSetting g f lg lf :=
  ⟨h.lead_g, h.lead_f, h.coprime.symm, h.tail_g, h.tail_f⟩

theorem partialSum_symm (f g : BoolePolynomial) (u v : Finset BooleMonomial) :
    partialSum g f v u = partialSum f g u v := by
  unfold partialSum
  exact add_comm _ _

theorem BoolePolynomial.eq_of_add_eq_zero {p q : BoolePolynomial} (h : p + q = 0) : p = q :=
  eq_neg_of_add_eq_zero_left h

theorem partialSum_erase (f g : BoolePolynomial) (u v : Finset BooleMonomial)
    {s : BooleMonomial} (hs : s ∈ u) :
    partialSum f g u v = mulMonomial g s + partialSum f g (u.erase s) v := by
  unfold partialSum
  rw [← Finset.add_sum_erase u (fun s => mulMonomial g s) hs, add_assoc]

theorem eliminate_top {f g : BoolePolynomial} {lf lg : BooleMonomial}
    (h : ProductSetting f g lf lg) (u v : Finset BooleMonomial)
    (hu : u ⊆ f.erase lf) (hv : v ⊆ g.erase lg) {s : BooleMonomial} (hs : s ∈ u)
    (hmax : ∀ c ∈ u.image (fun a => a ∪ lg) ∪ v.image (fun b => b ∪ lf),
      ¬ BooleMonomial.lt (s ∪ lg) c) :
    (s ∪ lg) ∈ partialSum f g u v ∧
      eliminateTerm g (s ∪ lg) (partialSum f g u v) = .ok (partialSum f g (u.erase s) v) := by
  obtain ⟨hlf, hflt⟩ := lead_spec h.lead_f
  obtain ⟨hlg, hglt⟩ := lead_spec h.lead_g
  have hsf : s ∈ f := Finset.mem_of_mem_erase (hu hs)
  have hsne : s ≠ lf := Finset.ne_of_mem_erase (hu hs)
  have hsd : Disjoint s lg := h.tail_f s hsf hsne
  have hdecomp : partialSum f g u v
      = {s ∪ lg} + (mulMonomial (g.erase lg) s + partialSum f g (u.erase s) v) := by
    rw [partialSum_erase f g u v hs, mulMonomial_eq_lead_add hlg s, add_assoc,
      Finset.union_comm lg s]
  have hnot : (s ∪ lg) ∉ mulMonomial (g.erase lg) s + partialSum f g (u.erase s) v := by
    intro hmem
    have hcases : (s ∪ lg) ∈ mulMonomial (g.erase lg) s ∨
        (s ∪ lg) ∈ partialSum f g (u.erase s) v := by
      rcases BoolePolynomial.mem_add.mp hmem with ⟨h1, _⟩ | ⟨h1, _⟩
      · exact Or.inl h1
      · exact Or.inr h1
    rcases hcases with h1 | h1
    · have := mulMonomial_erase_lt_lead hglt hsd h1
      rw [Finset.union_comm lg s] at this
      exact BooleMonomial.lt_irrefl _ this
    · have hcases2 : (s ∪ lg) ∈ ∑ s' in u.erase s, mulMonomial g s' ∨
          (s ∪ lg) ∈ ∑ r in v, mulMonomial f r := by
        rcases BoolePolynomial.mem_add.mp h1 with ⟨h2, _⟩ | ⟨h2, _⟩
        · exact Or.inl h2
        · exact Or.inr h2
      rcases hcases2 with h2 | h2
      · obtain ⟨s', hs', hx⟩ := BoolePolynomial.mem_sum _ _ _ h2
        have hs'u : s' ∈ u := Finset.mem_of_mem_erase hs'
        have hs'ne : s' ≠ s := Finset.ne_of_mem_erase hs'
        have hs'd : Disjoint s' lg :=
          h.tail_f s' (Finset.mem_of_mem_erase (hu hs'u)) (Finset.ne_of_mem_erase (hu hs'u))
        have htop : s' ∪ lg ∈ u.image (fun a => a ∪ lg) ∪ v.image (fun b => b ∪ lf) :=
          Finset.mem_union_left _ (Finset.mem_image_of_mem _ hs'u)
        rcases mulMonomial_le_lead hglt hs'd hx with heq | hlt
        · apply hs'ne
          have h3 : (s' ∪ lg) \ lg = (s ∪ lg) \ lg := by rw [Finset.union_comm s' lg, ← heq]
          rw [Finset.union_sdiff_right, Finset.union_sdiff_right,
            Finset.sdiff_eq_self_of_disjoint hs'd, Finset.sdiff_eq_self_of_disjoint hsd] at h3
          exact h3
        · rw [Finset.union_comm lg s'] at hlt
          exact hmax _ htop hlt
      · obtain ⟨r, hr, hx⟩ := BoolePolynomial.mem_sum _ _ _ h2
        have hrd : Disjoint r lf :=
          h.tail_g r (Finset.mem_of_mem_erase (hv hr)) (Finset.ne_of_mem_erase (hv hr))
        have htop : r ∪ lf ∈ u.image (fun a => a ∪ lg) ∪ v.image (fun b => b ∪ lf) :=
          Finset.mem_union_right _ (Finset.mem_image_of_mem _ hr)
        rcases mulMonomial_le_lead hflt hrd hx with heq | hlt
        · have hsub : lf ⊆ s := by
            intro k hk
            have hk2 : k ∈ s ∪ lg := by rw [heq]; exact Finset.mem_union_left _ hk
            rcases Finset.mem_union.mp hk2 with hk3 | hk3
            · exact hk3
            · exact absurd hk3 (Finset.disjoint_left.mp h.coprime hk)
          exact BooleMonomial.not_lt_of_subset hsub (hflt s hsf hsne)
        · rw [Finset.union_comm lf r] at hlt
          exact hmax _ htop hlt
  have hmemP : (s ∪ lg) ∈ partialSum f g u v := by
    rw [hdecomp]
    exact BoolePolynomial.mem_add.mpr (Or.inl ⟨Finset.mem_singleton_self _, hnot⟩)
  refine ⟨hmemP, ?_⟩
  have hdiv : BooleMonomial.div (s ∪ lg) lg = .ok s := by
    have hsub : lg ⊆ s ∪ lg := Finset.subset_union_right
    simp only [BooleMonomial.div, hsub, if_true, Finset.union_sdiff_right,
      Finset.sdiff_eq_self_of_disjoint hsd]
  simp only [eliminateTerm, h.lead_g, ok_bind, hdiv, hmemP, if_true]
  rw [partialSum_erase f g u v hs, add_comm (mulMonomial g s) _, add_assoc,
    BoolePolynomial.add_self, add_zero]
  rfl

theorem partialSum_reduces {f g : BoolePolynomial} {lf lg : BooleMonomial}
    (h : ProductSetting f g lf lg) :
    ∀ (n : ℕ) (u v : Finset BooleMonomial), u ⊆ f.erase lf → v ⊆ g.erase lg →
      u.card + v.card = n → ReducesTo [f, g] (partialSum f g u v) 0 := by
  intro n
  induction n with
  | zero =>
    intro u v _ _ hcard
    have hu : u = ∅ := Finset.card_eq_zero.mp (by omega)
    have hv : v = ∅ := Finset.card_eq_zero.mp (by omega)
    subst hu; subst hv
    have : partialSum f g ∅ ∅ = 0 := by simp [partialSum]
    rw [this]
    exact Relation.ReflTransGen.refl
  | succ n ih =>
    intro u v hu hv hcard
    have hne : (u.image (fun a => a ∪ lg) ∪ v.image (fun b => b ∪ lf)).Nonempty := by
      by_contra hempty
      rw [Finset.not_nonempty_iff_eq_empty, Finset.union_eq_empty, Finset.image_eq_empty,
        Finset.image_eq_empty] at hempty
      obtain ⟨hu0, hv0⟩ := hempty
      subst hu0; subst hv0
      simp at hcard
    obtain ⟨m, hm, hmax⟩ := exists_maximal_term _ hne
    rcases Finset.mem_union.mp hm with hmu | hmv
    · obtain ⟨s, hs, rfl⟩ := Finset.mem_image.mp hmu
      obtain ⟨hmem, hstep⟩ := eliminate_top h u v hu hv hs hmax
      have hcard2 : (u.erase s).card + v.card = n := by
        rw [Finset.card_erase_of_mem hs]
        have := Finset.card_pos.mpr ⟨s, hs⟩
        omega
      refine Relation.ReflTransGen.head ?_
        (ih (u.erase s) v ((Finset.erase_subset s u).trans hu) hv hcard2)
      exact ⟨g, by simp, s ∪ lg, hmem, hstep⟩
    · obtain ⟨r, hr, rfl⟩ := Finset.mem_image.mp hmv
      have hmax2 : ∀ c ∈ v.image (fun b => b ∪ lf) ∪ u.image (fun a => a ∪ lg),
          ¬ BooleMonomial.lt (r ∪ lf) c := by
        intro c hc
        rw [Finset.union_comm] at hc
        exact hmax c hc
      obtain ⟨hmem, hstep⟩ := eliminate_top h.symm v u hv hu hr hmax2
      rw [partialSum_symm f g u v] at hmem hstep
      rw [partialSum_symm f g (u) (v.erase r)] at hstep
      have hcard2 : u.card + (v.erase r).card = n := by
        rw [Finset.card_erase_of_mem hr]
        have := Finset.card_pos.mpr ⟨r, hr⟩
        omega
      refine Relation.ReflTransGen.head ?_
        (ih u (v.erase r) hu ((Finset.erase_subset r v).trans hv) hcard2)
      exact ⟨f, by simp, r ∪ lf, hmem, hstep⟩

theorem spoly_eq_partialSum {f g : BoolePolynomial} {lf lg : BooleMonomial}
    (h : ProductSetting f g lf lg) :
    spoly f g = .ok (partialSum f g (f.erase lf) (g.erase lg)) := by
  obtain ⟨hlf, _⟩ := lead_spec h.lead_f
  obtain ⟨hlg, _⟩ := lead_spec h.lead_g
  obtain ⟨hd1, _⟩ := BooleMonomial.div_mul_left lf lg
  obtain ⟨hd2, _⟩ := BooleMonomial.div_mul_right lf lg
  have e1 : lg \ lf = lg := Finset.sdiff_eq_self_of_disjoint h.coprime.symm
  have e2 : lf \ lg = lf := Finset.sdiff_eq_self_of_disjoint h.coprime
  simp only [spoly, h.lead_f, h.lead_g, ok_bind, hd1, hd2, e1, e2]
  have key := sum_mulMonomial_comm f g
  rw [← Finset.add_sum_erase f (fun a => mulMonomial g a) hlf,
    ← Finset.add_sum_erase g (fun b => mulMonomial f b) hlg] at key
  have hzero : (mulMonomial f lg + mulMonomial g lf)
      + partialSum f g (f.erase lf) (g.erase lg) = 0 := by
    unfold partialSum
    have : (mulMonomial f lg + mulMonomial g lf)
        + (∑ s in f.erase lf, mulMonomial g s + ∑ r in g.erase lg, mulMonomial f r)
        = (mulMonomial g lf + ∑ s in f.erase lf, mulMonomial g s)
          + (mulMonomial f lg + ∑ r in g.erase lg, mulMonomial f r) := by abel
    rw [this, key, BoolePolynomial.add_self]
  have := BoolePolynomial.eq_of_add_eq_zero hzero
  show Except.ok _ = Except.ok _
  rw [this]

/-- Elimination steps never leave a set of polynomials that is closed under
them. -/
theorem ReducesTo.stays {G : List BoolePolynomial} {R : Finset BoolePolynomial}
    (hclosed : ∀ p ∈ R, ∀ h ∈ G, ∀ t ∈ p, staysIn R (eliminateTerm h t p))
    {p q : BoolePolynomial} (hpq : ReducesTo G p q) (hp : p ∈ R) : q ∈ R := by
  induction hpq with
  | refl => exact hp
  | tail _ hstep ih =>
    obtain ⟨h, hG, t, ht, hq⟩ := hstep
    have := hclosed _ ih h hG t ht
    rw [hq] at this
    exact this

theorem reachableFG_closed :
    ∀ p ∈ reachableFG, ∀ h ∈ [generatorF, generatorG], ∀ t ∈ p,
      staysIn reachableFG (eliminateTerm h t p) := by
  decide

/-- C5 as stated fails: `x0 + x1 + 1` and `x1*x2 + 1` are non-zero, their leads
`x0` and `x1*x2` share no variable, their S-polynomial is `x0`, and no sequence
of elimination steps against the two generators leads from it to zero (the only
step gives `x1 + 1`, which neither lead divides). -/
theorem spoly_coprime_leads_not_reduced :
    generatorF ≠ 0 ∧ generatorG ≠ 0 ∧
    lead generatorF = .ok {0} ∧ lead generatorG = .ok {1, 2} ∧
    Disjoint ({0} : BooleMonomial) {1, 2} ∧
    spoly generatorF generatorG = .ok {{0}} ∧
    ¬ ReducesTo [generatorF, generatorG] {{0}} 0 := by
  refine ⟨by decide, by decide, by decide, by decide, by decide, by decide, ?_⟩
  intro hred
  have hmem := ReducesTo.stays reachableFG_closed hred (by decide)
  exact absurd hmem (by decide)

/-- C5 (amended): for polynomials `f`, `g` with leads `lf`, `lg` that share no
variable, such that moreover no variable of `lg` occurs in a non-leading term
of `f` and no variable of `lf` occurs in a non-leading term of `g`, the
S-polynomial `spoly f g` reduces to zero against the generators `f` and `g`. -/
theorem spoly_reduces_to_zero (f g : BoolePolynomial) (lf lg : BooleMonomial)
    (hf : lead f = .ok lf) (hg : lead g = .ok lg) (hcoprime : Disjoint lf lg)
    (htf : ∀ a ∈ f, a ≠ lf → Disjoint a lg) (htg : ∀ b ∈ g, b ≠ lg → Disjoint b lf) :
    ∃ S : BoolePolynomial, spoly f g = .ok S ∧ ReducesTo [f, g] S 0 := by
  have h : ProductSetting f g lf lg := ⟨hf, hg, hcoprime, htf, htg⟩
  exact ⟨_, spoly_eq_partialSum h,
    partialSum_reduces h _ _ _ (Finset.Subset.refl _) (Finset.Subset.refl _) rfl⟩

theorem spoly_reduces_to_zero_witness :
    ∃ S : BoolePolynomial, spoly ({{0}, {2}} : BoolePolynomial) {{1}, {2}} = .ok S ∧
      ReducesTo [{{0}, {2}}, {{1}, {2}}] S 0 :=
  spoly_reduces_to_zero {{0}, {2}} {{1}, {2}} {0} {1} (by decide) (by decide) (by decide)
    (by decide) (by decide)

/-! ## Term accumulation at concrete diagrams -/

/-- C1: at the well-formed diagram of `x0*x1 + x0`, with `first` at the term
`x0*x1` and `last` at the term `x0`, the recursion of `term_accumulate` yields
`x0*x1 + x0` whereas the terms from `first` up to, excluding, `last` sum to
`x0*x1`; the closing assertion of `term_accumulate` fails. -/
theorem term_accumulate_keeps_last_term :
    diagramA.wellFormed = true ∧ diagramA.terms = [[0, 1], [0]] ∧
    (⟨diagramA, 1⟩ : TermIter).isOne = false ∧
    (term_accumulate6 [0, 1] diagramA [0] 0).map DD.poly = .ok {{0, 1}, {0}} ∧
    std_accumulate ⟨diagramA, 0⟩ ⟨diagramA, 1⟩ 0 = {{0, 1}} ∧
    term_accumulate ⟨diagramA, 0⟩ ⟨diagramA, 1⟩ 0 = .error .assertion := by
  decide

/-- C7: at the well-formed diagram of `x0`, with `first` at the term `x0`,
`last` past the end and `init = 1`, the recursion of `term_accumulate` yields
`x0` whereas `std::accumulate(first, last, init)` is `x0 + 1`; the closing
assertion of `term_accumulate` fails. -/
theorem term_accumulate_ignores_init :
    diagramB.wellFormed = true ∧ diagramB.terms = [[0]] ∧
    (⟨diagramB, 1⟩ : TermIter).isOne = false ∧
    (term_accumulate6 [0] diagramB [] 1).map DD.poly = .ok {{0}} ∧
    std_accumulate ⟨diagramB, 0⟩ ⟨diagramB, 1⟩ 1 = {{0}, ∅} ∧
    term_accumulate ⟨diagramB, 0⟩ ⟨diagramB, 1⟩ 1 = .error .assertion := by
  decide

/-- C10: at the well-formed diagram of `x1*x2 + x1` and its term `x1`,
`lower_term_accumulate` returns the zero polynomial although the term `x1*x2`
is enumerated before `x1`: the index sequence of `x1` is exhausted at the
node of `x2`. -/
theorem lower_term_accumulate_drops_terms :
    diagramC.wellFormed = true ∧ diagramC.terms = [[1, 2], [1]] ∧
    lower_term_accumulate diagramC [1] 0 = .ok .zero ∧
    DD.zero.poly = 0 ∧
    sumTerms (diagramC.termsBefore [1]) = {{1, 2}} := by
  decide

/-! ## Terms of well-formed diagrams -/

theorem DD.wellFormed_node {x : ℕ} {t e : DD} (h : (DD.node x t e).wellFormed = true) :
    t ≠ .zero ∧ t.rootAbove x = true ∧ e.rootAbove x = true ∧
      t.wellFormed = true ∧ e.wellFormed = true := by
  simpa [DD.wellFormed, and_assoc] using h

theorem BooleSet.mk_terms (x : ℕ) (t e : DD) :
    (BooleSet.mk x t e).terms = t.terms.map (fun m => x :: m) ++ e.terms := by
  unfold BooleSet.mk
  split
  · rename_i h
    subst h
    simp [DD.terms]
  · rfl

/-- In a well-formed diagram whose root lies above `x`, every index of every
term exceeds `x`. -/
theorem DD.lt_of_mem_terms (d : DD) : ∀ (x : ℕ), d.wellFormed = true → d.rootAbove x = true →
    ∀ t ∈ d.terms, ∀ k ∈ t, x < k := by
  induction d with
  | zero => intro x _ _ t ht; simp [DD.terms] at ht
  | one =>
    intro x _ _ t ht k hk
    simp [DD.terms] at ht
    subst ht
    simp at hk
  | node y tb eb iht ihe =>
    intro x hw hr t ht k hk
    obtain ⟨_, hrt, hre, hwt, hwe⟩ := DD.wellFormed_node hw
    have hxy : x < y := by simpa [DD.rootAbove] using hr
    simp only [DD.terms, List.mem_append, List.mem_map] at ht
    rcases ht with ⟨m, hm, rfl⟩ | ht
    · rcases List.mem_cons.mp hk with rfl | hk
      · exact hxy
      · exact Nat.lt_trans hxy (iht y hwt hrt m hm k hk)
    · exact Nat.lt_trans hxy (ihe y hwe hre t ht k hk)

theorem drop_append_of_length_le {α : Type} (A B : List α) (i : ℕ) (h : A.length ≤ i) :
    (A ++ B).drop i = B.drop (i - A.length) := by
  rw [List.drop_append_eq_append_drop, List.drop_eq_nil_of_le h, List.nil_append]

theorem drop_append_of_le_length {α : Type} (A B : List α) (i : ℕ) (h : i ≤ A.length) :
    (A ++ B).drop i = A.drop i ++ B := by
  rw [List.drop_append_eq_append_drop, Nat.sub_eq_zero_of_le h, List.drop_zero]

/-- The constant term, when present, closes the enumeration. -/
theorem DD.drop_of_one (d : DD) : ∀ (i : ℕ), d.terms[i]? = some [] → d.terms.drop i = [[]] := by
  induction d with
  | zero => intro i h; simp [DD.terms] at h
  | one =>
    intro i h
    cases i with
    | zero => rfl
    | succ i => simp [DD.terms] at h
  | node y tb eb _ ihe =>
    intro i h
    simp only [DD.terms] at h ⊢
    by_cases hi : i < (tb.terms.map (fun m => y :: m)).length
    · rw [List.getElem?_append_left hi] at h
      simp at h
    · have hi2 : (tb.terms.map (fun m => y :: m)).length ≤ i := Nat.le_of_not_lt hi
      rw [List.getElem?_append_right hi2] at h
      rw [drop_append_of_length_le _ _ _ hi2]
      exact ihe _ h

/-- The else-skipping loop, started for a term `u :: us` of a well-formed
diagram, stops at the node of `u` on whose then-branch the rest of the term
lies; the terms of that node are the terms of the diagram from some position
`k` on. -/
theorem incrementElseWhile_of_term (d : DD) : ∀ (i u : ℕ) (us : List ℕ),
    d.wellFormed = true → d.terms[i]? = some (u :: us) →
    ∃ (tb eb : DD) (k : ℕ), incrementElseWhile u d = .node u tb eb ∧
      (DD.node u tb eb).wellFormed = true ∧ k ≤ i ∧
      d.terms.drop k = (DD.node u tb eb).terms ∧ tb.terms[i - k]? = some us := by
  induction d with
  | zero => intro i u us _ h; simp [DD.terms] at h
  | one =>
    intro i u us _ h
    cases i with
    | zero => simp [DD.terms] at h
    | succ i => simp [DD.terms] at h
  | node y tb eb _ ihe =>
    intro i u us hw h
    obtain ⟨_, _, hre, _, hwe⟩ := DD.wellFormed_node hw
    simp only [DD.terms] at h
    by_cases hi : i < (tb.terms.map (fun m => y :: m)).length
    · rw [List.getElem?_append_left hi, List.getElem?_map] at h
      cases hm : tb.terms[i]? with
      | none => rw [hm] at h; simp at h
      | some m =>
        rw [hm] at h
        simp only [Option.map_some', Option.some.injEq, List.cons.injEq] at h
        obtain ⟨rfl, rfl⟩ := h
        refine ⟨tb, eb, 0, ?_, hw, Nat.zero_le _, rfl, hm⟩
        simp [incrementElseWhile]
    · have hi2 : (tb.terms.map (fun m => y :: m)).length ≤ i := Nat.le_of_not_lt hi
      rw [List.getElem?_append_right hi2] at h
      have hmem : (u :: us) ∈ eb.terms := List.getElem?_mem h
      have hyu : y < u := DD.lt_of_mem_terms eb y hwe hre _ hmem u (List.mem_cons_self _ _)
      obtain ⟨tb', eb', k', hskip, hw', hk', hdrop, hus⟩ := ihe _ u us hwe h
      refine ⟨tb', eb', (tb.terms.map (fun m => y :: m)).length + k', ?_, hw', by omega, ?_, ?_⟩
      · simp [incrementElseWhile, hyu, hskip]
      · simp only [DD.terms]
        rw [drop_append_of_length_le _ _ _ (Nat.le_add_right _ _), Nat.add_sub_cancel_left]
        exact hdrop
      · rw [← hus]
        congr 1
        omega

theorem upper_term_accumulate_terms : ∀ (t : List ℕ) (d : DD) (i : ℕ) (init : BoolePolynomial),
    d.wellFormed = true → d.terms[i]? = some t →
    ∃ r : DD, upper_term_accumulate t d init = .ok r ∧ r.terms = d.terms.drop i := by
  intro t
  induction t with
  | nil =>
    intro d i init _ h
    exact ⟨.one, rfl, (DD.drop_of_one d i h).symm⟩
  | cons u us ih =>
    intro d i init hw h
    obtain ⟨tb, eb, k, hskip, hw', hk, hdrop, hus⟩ := incrementElseWhile_of_term d i u us hw h
    obtain ⟨_, _, _, hwt, _⟩ := DD.wellFormed_node hw'
    obtain ⟨r', hr', hterms⟩ := ih tb (i - k) init hwt hus
    refine ⟨BooleSet.mk u r' eb, ?_, ?_⟩
    · simp only [upper_term_accumulate, hskip, hr', ok_bind]
      rfl
    · have hlen : i - k ≤ (tb.terms.map (fun m => u :: m)).length := by
        have := (List.getElem?_eq_some_iff.mp hus).1
        simp only [List.length_map]
        omega
      have hsplit : d.terms.drop i = (d.terms.drop k).drop (i - k) := by
        rw [List.drop_drop]
        congr 1
        omega
      rw [BooleSet.mk_terms, hterms, hsplit, hdrop]
      simp only [DD.terms]
      rw [drop_append_of_le_length _ _ _ hlen, List.map_drop]

theorem BooleMonomial.lt_asymm {a b : BooleMonomial} (h : BooleMonomial.lt a b) :
    ¬ BooleMonomial.lt b a :=
  fun h2 => BooleMonomial.lt_irrefl a (BooleMonomial.lt_trans h h2)

theorem monomialOf_cons (x : ℕ) (m : List ℕ) :
    monomialOf (x :: m) = monomialOf m ∪ {x} := by
  unfold monomialOf
  rw [List.toFinset_cons, Finset.insert_eq, Finset.union_comm]

/-- The term enumeration of a well-formed diagram is strictly decreasing in the
monomial order. -/
theorem DD.terms_sorted (d : DD) : d.wellFormed = true →
    d.terms.Pairwise (fun a b => BooleMonomial.lt (monomialOf b) (monomialOf a)) := by
  induction d with
  | zero => intro _; simp [DD.terms]
  | one => intro _; simp [DD.terms]
  | node y tb eb iht ihe =>
    intro hw
    obtain ⟨_, hrt, hre, hwt, hwe⟩ := DD.wellFormed_node hw
    simp only [DD.terms]
    rw [List.pairwise_append]
    refine ⟨?_, ihe hwe, ?_⟩
    · rw [List.pairwise_map]
      refine (iht hwt).imp_of_mem ?_
      intro a b _ hb hlt
      rw [monomialOf_cons, monomialOf_cons]
      refine BooleMonomial.lt_union_left hlt ?_
      rw [Finset.disjoint_singleton_left]
      intro hy
      have hk : y ∈ a := by simpa [monomialOf] using hy
      rename_i ha
      exact Nat.lt_irrefl y (DD.lt_of_mem_terms tb y hwt hrt a ha y hk)
    · intro a ha b hb
      obtain ⟨m, hm, rfl⟩ := List.mem_map.mp ha
      refine ⟨y, by simp [monomialOf], ?_, ?_⟩
      · intro hy
        have hk : y ∈ b := by simpa [monomialOf] using hy
        exact Nat.lt_irrefl y (DD.lt_of_mem_terms eb y hwe hre b hb y hk)
      · intro j hj
        constructor
        · intro hjb
          have hk : j ∈ b := by simpa [monomialOf] using hjb
          exact absurd (DD.lt_of_mem_terms eb y hwe hre b hb j hk) (Nat.lt_asymm hj)
        · intro hjm
          have hk : j ∈ y :: m := by simpa [monomialOf] using hjm
          rcases List.mem_cons.mp hk with rfl | hk
          · exact absurd hj (Nat.lt_irrefl _)
          · exact absurd (DD.lt_of_mem_terms tb y hwt hrt m hm j hk) (Nat.lt_asymm hj)

/-- In a strictly decreasing enumeration the terms less than or equal to the
term at position `i` are the terms from position `i` on. -/
theorem filter_termLe_eq_drop (l : List (List ℕ))
    (hs : l.Pairwise (fun a b => BooleMonomial.lt (monomialOf b) (monomialOf a))) :
    ∀ (i : ℕ) (t : List ℕ), l[i]? = some t → l.filter (fun s => termLe s t) = l.drop i := by
  induction l with
  | nil => intro i t h; simp at h
  | cons a rest ih =>
    intro i t h
    rw [List.pairwise_cons] at hs
    obtain ⟨ha, hrest⟩ := hs
    cases i with
    | zero =>
      simp only [List.getElem?_cons_zero, Option.some.injEq] at h
      subst h
      rw [List.drop_zero, List.filter_eq_self]
      intro b hb
      rcases List.mem_cons.mp hb with rfl | hb
      · simpa [termLe] using BooleMonomial.lt_irrefl _
      · simpa [termLe] using BooleMonomial.lt_asymm (ha b hb)
    | succ i =>
      simp only [List.getElem?_cons_succ] at h
      have hta : BooleMonomial.lt (monomialOf t) (monomialOf a) := ha t (List.getElem?_mem h)
      have hfalse : termLe a t = false := by simpa [termLe] using hta
      rw [List.filter_cons_of_neg (by simp [hfalse]), List.drop_succ_cons]
      exact ih hrest i t h

theorem sumTerms_append (A B : List (List ℕ)) :
    sumTerms (A ++ B) = sumTerms A + sumTerms B := by
  simp [sumTerms, List.map_append, List.sum_append]

theorem foldl_add_term (l : List (List ℕ)) : ∀ init : BoolePolynomial,
    l.foldl (fun acc t => acc + ({monomialOf t} : BoolePolynomial)) init = init + sumTerms l := by
  induction l with
  | nil => intro init; simp [sumTerms]
  | cons a rest ih =>
    intro init
    rw [List.foldl_cons, ih]
    simp [sumTerms, add_assoc]

/-- C11: for a well-formed cursor `navi` and a term `t` of its polynomial,
`upper_term_accumulate(t, navi, 0)` returns the sum of exactly the terms of
`navi` that are less than or equal to `t` in the monomial order; these are `t`
and the terms enumerated after it. -/
theorem upper_term_accumulate_sums_terms_le (navi : DD) (hw : navi.wellFormed = true)
    (t : List ℕ) (ht : t ∈ navi.terms) :
    ∃ r : DD, upper_term_accumulate t navi 0 = .ok r ∧
      r.poly = sumTerms (navi.terms.filter (fun s => termLe s t)) ∧
      ∀ i : ℕ, navi.terms[i]? = some t →
        navi.terms.filter (fun s => termLe s t) = navi.terms.drop i := by
  obtain ⟨i, hi⟩ := List.getElem?_of_mem ht
  obtain ⟨r, hr, hterms⟩ := upper_term_accumulate_terms t navi i 0 hw hi
  have hfilter := filter_termLe_eq_drop navi.terms (DD.terms_sorted navi hw)
  refine ⟨r, hr, ?_, fun j hj => hfilter j t hj⟩
  unfold DD.poly
  rw [hterms, hfilter i t hi]

theorem upper_term_accumulate_sums_terms_le_witness :
    ∃ r : DD, upper_term_accumulate [1, 2] diagramC 0 = .ok r ∧
      r.poly = sumTerms (diagramC.terms.filter (fun s => termLe s [1, 2])) ∧
      ∀ i : ℕ, diagramC.terms[i]? = some [1, 2] →
        diagramC.terms.filter (fun s => termLe s [1, 2]) = diagramC.terms.drop i :=
  upper_term_accumulate_sums_terms_le diagramC (by decide) [1, 2] (by decide)

theorem sumTerms_one : sumTerms [[]] = 1 := by
  simp [sumTerms, monomialOf]
  rfl

/-- C12: for a well-formed polynomial `p` with the constant term `1`, a term
position `first` of `p` and `last` the position of the constant term,
`term_accumulate(first, last, 0)`, computed as `upper_term_accumulate(...) + 1`,
is the XOR-sum of the terms of `p` from `first` up to but excluding the
constant term. -/
theorem term_accumulate_up_to_constant_term (p : DD) (hw : p.wellFormed = true) (i j : ℕ)
    (hi : i < p.terms.length) (hone : p.terms[j]? = some []) :
    (TermIter.isOne ⟨p, j⟩ = true) ∧
    (∃ r : DD, upper_term_accumulate (TermIter.indices ⟨p, i⟩) p 0 = .ok r ∧
      term_accumulate ⟨p, i⟩ ⟨p, j⟩ 0 = .ok (r.poly + 1)) ∧
    term_accumulate ⟨p, i⟩ ⟨p, j⟩ 0 = .ok (sumTerms ((p.terms.drop i).take (j - i))) ∧
    std_accumulate ⟨p, i⟩ ⟨p, j⟩ 0 = sumTerms ((p.terms.drop i).take (j - i)) := by
  have hdropj := DD.drop_of_one p j hone
  have hjlt : j < p.terms.length := (List.getElem?_eq_some_iff.mp hone).1
  have hlen : p.terms.length = j + 1 := by
    have := congrArg List.length hdropj
    simp only [List.length_drop, List.length_singleton] at this
    omega
  have hij : i ≤ j := by omega
  have hti : p.terms[i]? = some p.terms[i] := List.getElem?_eq_getElem hi
  obtain ⟨r, hr, hterms⟩ := upper_term_accumulate_terms p.terms[i] p i 0 hw hti
  have hisOne : TermIter.isOne ⟨p, j⟩ = true := by simp [TermIter.isOne, TermIter.term, hone]
  have hind : TermIter.indices ⟨p, i⟩ = p.terms[i] := by
    simp [TermIter.indices, TermIter.term, hti]
  have hta : term_accumulate ⟨p, i⟩ ⟨p, j⟩ 0 = .ok (r.poly + 1) := by
    simp only [term_accumulate, hisOne, if_true, hind, hr, ok_bind]
    rfl
  have hsplit : p.terms.drop i = (p.terms.drop i).take (j - i) ++ [[]] := by
    have h1 : ((p.terms.drop i).drop (j - i)) = [[]] := by
      rw [List.drop_drop, ← hdropj]
      congr 1
      omega
    rw [← h1, List.take_append_drop]
  have hpoly : r.poly + 1 = sumTerms ((p.terms.drop i).take (j - i)) := by
    unfold DD.poly
    rw [hterms]
    conv_lhs => rw [hsplit]
    rw [sumTerms_append, sumTerms_one, add_assoc, BoolePolynomial.add_self, add_zero]
  refine ⟨hisOne, ⟨r, by rw [hind]; exact hr, hta⟩, by rw [hta, hpoly], ?_⟩
  simp only [std_accumulate]
  rw [foldl_add_term, zero_add]

theorem term_accumulate_up_to_constant_term_witness :
    (TermIter.isOne ⟨.node 0 .one .one, 1⟩ = true) ∧
    (∃ r : DD, upper_term_accumulate (TermIter.indices ⟨.node 0 .one .one, 0⟩)
        (.node 0 .one .one) 0 = .ok r ∧
      term_accumulate ⟨.node 0 .one .one, 0⟩ ⟨.node 0 .one .one, 1⟩ 0 = .ok (r.poly + 1)) ∧
    term_accumulate ⟨.node 0 .one .one, 0⟩ ⟨.node 0 .one .one, 1⟩ 0
      = .ok (sumTerms (((DD.node 0 .one .one).terms.drop 0).take (1 - 0))) ∧
    std_accumulate ⟨.node 0 .one .one, 0⟩ ⟨.node 0 .one .one, 1⟩ 0
      = sumTerms (((DD.node 0 .one .one).terms.drop 0).take (1 - 0)) :=
  term_accumulate_up_to_constant_term (.node 0 .one .one) (by decide) 0 1 (by decide)
    (by decide)

/-! ## The defensive assertions -/

theorem lower_term_accumulate_ok (d : DD) : ∀ (t : List ℕ) (init : BoolePolynomial),
    d.wellFormed = true → t ∈ d.terms → ∃ r : DD, lower_term_accumulate d t init = .ok r := by
  induction d with
  | zero => intro t init _ h; simp [DD.terms] at h
  | one =>
    intro t init _ h
    simp [DD.terms] at h
    subst h
    exact ⟨_, rfl⟩
  | node y tb eb iht ihe =>
    intro t init hw h
    obtain ⟨_, _, hre, hwt, hwe⟩ := DD.wellFormed_node hw
    cases t with
    | nil => exact ⟨_, rfl⟩
    | cons l ls =>
      simp only [DD.terms, List.mem_append, List.mem_map] at h
      rcases h with ⟨m, hm, heq⟩ | h
      · simp only [List.cons.injEq] at heq
        obtain ⟨rfl, rfl⟩ := heq
        obtain ⟨r, hr⟩ := iht m init hwt hm
        refine ⟨BooleSet.mk y r .zero, ?_⟩
        simp only [lower_term_accumulate, Nat.lt_irrefl, if_false, gt_iff_lt, ne_eq,
          not_true_eq_false, hr, ok_bind]
        rfl
      · have hyl : y < l := DD.lt_of_mem_terms eb y hwe hre _ h l (List.mem_cons_self _ _)
        obtain ⟨r, hr⟩ := ihe (l :: ls) init hwe h
        refine ⟨BooleSet.mk y tb r, ?_⟩
        simp only [lower_term_accumulate, Nat.lt_asymm hyl, if_false, gt_iff_lt, hyl, if_true,
          hr, ok_bind]
        rfl

theorem term_accumulate6_ok : ∀ (u : List ℕ) (d : DD) (l : List ℕ) (i j : ℕ)
    (init : BoolePolynomial), d.wellFormed = true → i ≤ j →
    (u = [] ∨ d.terms[i]? = some u) → (l = [] ∨ d.terms[j]? = some l) →
    ∃ r : DD, term_accumulate6 u d l init = .ok r := by
  intro u
  induction u with
  | nil => intro d l i j init _ _ _ _; exact ⟨_, rfl⟩
  | cons u0 us ih =>
    intro d l i j init hw hij hu hl
    have hu : d.terms[i]? = some (u0 :: us) := by
      rcases hu with h | h
      · exact absurd h (List.cons_ne_nil _ _)
      · exact h
    cases l with
    | nil =>
      obtain ⟨r, hr, _⟩ := upper_term_accumulate_terms (u0 :: us) d i init hw hu
      exact ⟨r, hr⟩
    | cons l0 ls =>
      have hl : d.terms[j]? = some (l0 :: ls) := by
        rcases hl with h | h
        · exact absurd h (List.cons_ne_nil _ _)
        · exact h
      obtain ⟨tb, eb, k, hskip, hw', hk, hdrop, hus⟩ := incrementElseWhile_of_term d i u0 us hw hu
      obtain ⟨_, _, hre, hwt, hwe⟩ := DD.wellFormed_node hw'
      have hlN : (DD.node u0 tb eb).terms[j - k]? = some (l0 :: ls) := by
        rw [← hdrop, List.getElem?_drop, ← hl]
        congr 1
        omega
      simp only [DD.terms] at hlN
      by_cases hjk : j - k < (tb.terms.map (fun m => u0 :: m)).length
      · rw [List.getElem?_append_left hjk, List.getElem?_map] at hlN
        cases hm : tb.terms[j - k]? with
        | none => rw [hm] at hlN; simp at hlN
        | some m =>
          rw [hm] at hlN
          simp only [Option.map_some', Option.some.injEq, List.cons.injEq] at hlN
          obtain ⟨rfl, rfl⟩ := hlN
          obtain ⟨r, hr⟩ := ih tb m (i - k) (j - k) init hwt (by omega) (Or.inr hus) (Or.inr hm)
          refine ⟨BooleSet.mk u0 r .zero, ?_⟩
          simp only [term_accumulate6, hskip, Nat.lt_irrefl, if_false, gt_iff_lt, ne_eq,
            not_true_eq_false, hr, ok_bind]
          rfl
      · have hjk2 : (tb.terms.map (fun m => u0 :: m)).length ≤ j - k := Nat.le_of_not_lt hjk
        rw [List.getElem?_append_right hjk2] at hlN
        have hmem : (l0 :: ls) ∈ eb.terms := List.getElem?_mem hlN
        have hlt : u0 < l0 := DD.lt_of_mem_terms eb u0 hwe hre _ hmem l0 (List.mem_cons_self _ _)
        obtain ⟨r1, hr1, _⟩ := upper_term_accumulate_terms us tb (i - k) init hwt hus
        obtain ⟨r2, hr2⟩ := lower_term_accumulate_ok eb (l0 :: ls) init hwe hmem
        refine ⟨BooleSet.mk u0 r1 r2, ?_⟩
        simp only [term_accumulate6, hskip, Nat.lt_asymm hlt, if_false, gt_iff_lt, hlt, if_true,
          hr1, hr2, ok_bind]
        rfl

/-- C16: when `first` and `last` are positions in the term enumeration of one
well-formed polynomial and `first` is not after `last`, the recursion of the
six-argument `term_accumulate` ends without a failure, so none of its
assertions `*lstart >= *navi` and `*lstart == *navi`, nor those of the calls of
`lower_term_accumulate` it makes, fails; the same holds for
`lower_term_accumulate` started at any term of a well-formed diagram. -/
theorem defensive_assertions_hold (p : DD) (hw : p.wellFormed = true) (i j : ℕ)
    (hij : i ≤ j) (init : BoolePolynomial) :
    (∃ r : DD, term_accumulate6 (TermIter.indices ⟨p, i⟩) p (TermIter.indices ⟨p, j⟩) init
      = .ok r) ∧
    ∀ t ∈ p.terms, ∃ r : DD, lower_term_accumulate p t init = .ok r := by
  refine ⟨?_, fun t ht => lower_term_accumulate_ok p t init hw ht⟩
  have hpos : ∀ k : ℕ, TermIter.indices ⟨p, k⟩ = [] ∨
      p.terms[k]? = some (TermIter.indices ⟨p, k⟩) := by
    intro k
    cases hk : p.terms[k]? with
    | none => left; simp [TermIter.indices, TermIter.term, hk]
    | some t => right; simp [TermIter.indices, TermIter.term, hk]
  exact term_accumulate6_ok _ p _ i j init hw hij (hpos i) (hpos j)

theorem defensive_assertions_hold_witness :
    (∃ r : DD, term_accumulate6 (TermIter.indices ⟨diagramA, 0⟩) diagramA
      (TermIter.indices ⟨diagramA, 1⟩) 0 = .ok r) ∧
    ∀ t ∈ diagramA.terms, ∃ r : DD, lower_term_accumulate diagramA t 0 = .ok r :=
  defensive_assertions_hold diagramA (by decide) 0 1 (by decide) 0

/-- C13: at the well-formed diagram of `x0` the empty range from the term `x0`
to itself makes the recursion of `term_accumulate` return `x0`, and the empty
range at the past-the-end position makes it return `1`; the empty sum is `0`
in both cases, so the closing assertion of `term_accumulate` fails. -/
theorem term_accumulate_empty_range_not_zero :
    diagramB.wellFormed = true ∧ diagramB.terms = [[0]] ∧
    (term_accumulate6 [0] diagramB [0] 0).map DD.poly = .ok {{0}} ∧
    std_accumulate ⟨diagramB, 0⟩ ⟨diagramB, 0⟩ 0 = 0 ∧
    term_accumulate ⟨diagramB, 0⟩ ⟨diagramB, 0⟩ 0 = .error .assertion ∧
    (term_accumulate6 [] diagramB [] 0).map DD.poly = .ok 1 ∧
    term_accumulate ⟨diagramB, 1⟩ ⟨diagramB, 1⟩ 0 = .error .assertion := by
  decide

/-! ## Nesting of calls in term accumulation -/

theorem DD.indicesBelow_node {n x : ℕ} {t e : DD} (h : (DD.node x t e).indicesBelow n = true) :
    x < n ∧ t.indicesBelow n = true ∧ e.indicesBelow n = true := by
  simpa [DD.indicesBelow, and_assoc] using h

theorem DD.rootAtLeast_of_rootAbove {x : ℕ} {d : DD} (h : d.rootAbove x = true) :
    d.rootAtLeast (x + 1) = true := by
  cases d with
  | zero => rfl
  | one => rfl
  | node y t e =>
    have : x < y := by simpa [DD.rootAbove] using h
    simpa [DD.rootAtLeast] using this

/-- The else-skipping loop stays inside the diagram: it ends at a constant or
at a node of the else-chain. -/
theorem incrementElseWhile_props (n k u : ℕ) (d : DD) :
    d.wellFormed = true → d.indicesBelow n = true → d.rootAtLeast k = true →
    (incrementElseWhile u d).wellFormed = true ∧
      (incrementElseWhile u d).indicesBelow n = true ∧
      (incrementElseWhile u d).rootAtLeast k = true := by
  induction d generalizing k with
  | zero => intro h1 h2 h3; exact ⟨h1, h2, h3⟩
  | one => intro h1 h2 h3; exact ⟨h1, h2, h3⟩
  | node x t e _ ihe =>
    intro hw hn hk
    by_cases hx : x < u
    · obtain ⟨_, _, hre, _, hwe⟩ := DD.wellFormed_node hw
      obtain ⟨_, _, hne⟩ := DD.indicesBelow_node hn
      have hkx : k ≤ x := by simpa [DD.rootAtLeast] using hk
      have := ihe (x + 1) hwe hne (DD.rootAtLeast_of_rootAbove hre)
      simp only [incrementElseWhile, hx, if_true]
      refine ⟨this.1, this.2.1, ?_⟩
      cases hres : incrementElseWhile u e with
      | zero => rfl
      | one => rfl
      | node y t' e' =>
        have h2 := this.2.2
        rw [hres] at h2
        have : x + 1 ≤ y := by simpa [DD.rootAtLeast] using h2
        simp only [DD.rootAtLeast, decide_eq_true_eq]
        omega
    · simp only [incrementElseWhile, hx, if_false]
      exact ⟨hw, hn, hk⟩

theorem DD.rootAtLeast_zero (d : DD) : d.rootAtLeast 0 = true := by
  cases d <;> simp [DD.rootAtLeast]

theorem TermIter.indices_cases (p : DD) (k : ℕ) :
    TermIter.indices ⟨p, k⟩ = [] ∨ p.terms[k]? = some (TermIter.indices ⟨p, k⟩) := by
  cases hk : p.terms[k]? with
  | none => left; simp [TermIter.indices, TermIter.term, hk]
  | some t => right; simp [TermIter.indices, TermIter.term, hk]

theorem DD.rootAtLeast_node {k x : ℕ} {t e : DD} (h : (DD.node x t e).rootAtLeast k = true) :
    k ≤ x := by
  simpa [DD.rootAtLeast] using h

/-- On a diagram over `n` variables whose root index is at least `k`, the
else-skipping loop makes at most `n - k` passes. -/
theorem incrementElseWhile_within_eq (n u : ℕ) (d : DD) : ∀ (k passes : ℕ),
    d.wellFormed = true → d.indicesBelow n = true → d.rootAtLeast k = true →
    n - k ≤ passes → incrementElseWhile_within passes u d = some (incrementElseWhile u d) := by
  induction d with
  | zero => intro k passes _ _ _ _; cases passes <;> rfl
  | one => intro k passes _ _ _ _; cases passes <;> rfl
  | node x t e _ ihe =>
    intro k passes hw hn hk hp
    obtain ⟨_, _, hre, _, hwe⟩ := DD.wellFormed_node hw
    obtain ⟨hxn, _, hne⟩ := DD.indicesBelow_node hn
    have hkx := DD.rootAtLeast_node hk
    by_cases hx : x < u
    · cases passes with
      | zero => omega
      | succ q =>
        simp only [incrementElseWhile_within, incrementElseWhile, hx, if_true]
        exact ihe (x + 1) q hwe hne (DD.rootAtLeast_of_rootAbove hre) (by omega)
    · cases passes <;> simp only [incrementElseWhile_within, incrementElseWhile, hx, if_false]

/-- On a diagram over `n` variables whose root index is at least `k`, at most
`n - k` calls are nested below a call of `lower_term_accumulate`. -/
theorem lower_term_accumulate_within_eq (n : ℕ) (init : BoolePolynomial) (d : DD) :
    ∀ (l : List ℕ) (k depth : ℕ),
    d.wellFormed = true → d.indicesBelow n = true → d.rootAtLeast k = true →
    n - k ≤ depth →
    lower_term_accumulate_within depth d l init = some (lower_term_accumulate d l init) := by
  induction d with
  | zero => intro l k depth _ _ _ _; cases l <;> cases depth <;> rfl
  | one => intro l k depth _ _ _ _; cases l <;> cases depth <;> rfl
  | node x t e iht ihe =>
    intro l k depth hw hn hk hd
    obtain ⟨_, hrt, hre, hwt, hwe⟩ := DD.wellFormed_node hw
    obtain ⟨hxn, hnt, hne⟩ := DD.indicesBelow_node hn
    have hkx := DD.rootAtLeast_node hk
    cases l with
    | nil => cases depth <;> rfl
    | cons l0 ls =>
      cases depth with
      | zero => omega
      | succ q =>
        by_cases h1 : l0 < x
        · simp only [lower_term_accumulate_within, lower_term_accumulate, h1, if_true]
        · by_cases h2 : l0 > x
          · simp only [lower_term_accumulate_within, lower_term_accumulate, h1, if_false, h2,
              if_true]
            rw [ihe (l0 :: ls) (x + 1) q hwe hne (DD.rootAtLeast_of_rootAbove hre) (by omega)]
            rfl
          · have h3 : ¬ (l0 ≠ x) := by omega
            simp only [lower_term_accumulate_within, lower_term_accumulate, h1, if_false, h2]
            rw [if_neg h3, if_neg h3,
              iht ls (x + 1) q hwt hnt (DD.rootAtLeast_of_rootAbove hrt) (by omega)]
            rfl

/-- On a diagram over `n` variables whose root index is at least `k`, at most
`n - k` calls are nested below a call of `upper_term_accumulate`, and each of
its loops makes at most `n` passes. -/
theorem upper_term_accumulate_within_eq (n passes : ℕ) (hp : n ≤ passes)
    (init : BoolePolynomial) : ∀ (u : List ℕ) (d : DD) (k depth : ℕ),
    d.wellFormed = true → d.indicesBelow n = true → d.rootAtLeast k = true →
    n - k ≤ depth →
    upper_term_accumulate_within depth passes u d init
      = some (upper_term_accumulate u d init) := by
  intro u
  induction u with
  | nil => intro d k depth _ _ _ _; cases depth <;> rfl
  | cons u0 us ih =>
    intro d k depth hw hn hk hd
    have hloop := incrementElseWhile_within_eq n u0 d k passes hw hn hk (by omega)
    obtain ⟨hw', hn', hk'⟩ := incrementElseWhile_props n k u0 d hw hn hk
    cases hres : incrementElseWhile u0 d with
    | zero =>
      rw [hres] at hloop
      simp only [upper_term_accumulate_within, upper_term_accumulate, hloop, hres]
    | one =>
      rw [hres] at hloop
      simp only [upper_term_accumulate_within, upper_term_accumulate, hloop, hres]
    | node x t e =>
      rw [hres] at hloop hw' hn' hk'
      obtain ⟨_, hrt, _, hwt, _⟩ := DD.wellFormed_node hw'
      obtain ⟨hxn, hnt, _⟩ := DD.indicesBelow_node hn'
      have hkx := DD.rootAtLeast_node hk'
      cases depth with
      | zero => omega
      | succ q =>
        simp only [upper_term_accumulate_within, upper_term_accumulate, hloop, hres]
        rw [ih t (x + 1) q hwt hnt (DD.rootAtLeast_of_rootAbove hrt) (by omega)]
        rfl

/-- On a diagram over `n` variables whose root index is at least `k`, at most
`n - k + 1` calls are nested below a call of the six-argument
`term_accumulate`. -/
theorem term_accumulate6_within_eq (n passes : ℕ) (hp : n ≤ passes)
    (init : BoolePolynomial) : ∀ (u : List ℕ) (d : DD) (l : List ℕ) (k depth : ℕ),
    d.wellFormed = true → d.indicesBelow n = true → d.rootAtLeast k = true →
    n - k + 1 ≤ depth →
    term_accumulate6_within depth passes u d l init
      = some (term_accumulate6 u d l init) := by
  intro u
  induction u with
  | nil => intro d l k depth _ _ _ _; cases depth <;> cases l <;> rfl
  | cons u0 us ih =>
    intro d l k depth hw hn hk hd
    cases depth with
    | zero => omega
    | succ q =>
      cases l with
      | nil =>
        simp only [term_accumulate6_within, term_accumulate6]
        exact upper_term_accumulate_within_eq n passes hp init (u0 :: us) d k q hw hn hk
          (by omega)
      | cons l0 ls =>
        have hloop := incrementElseWhile_within_eq n u0 d k passes hw hn hk (by omega)
        obtain ⟨hw', hn', hk'⟩ := incrementElseWhile_props n k u0 d hw hn hk
        cases hres : incrementElseWhile u0 d with
        | zero =>
          rw [hres] at hloop
          simp only [term_accumulate6_within, term_accumulate6, hloop, hres]
        | one =>
          rw [hres] at hloop
          simp only [term_accumulate6_within, term_accumulate6, hloop, hres]
        | node x t e =>
          rw [hres] at hloop hw' hn' hk'
          obtain ⟨_, hrt, hre, hwt, hwe⟩ := DD.wellFormed_node hw'
          obtain ⟨hxn, hnt, hne⟩ := DD.indicesBelow_node hn'
          have hkx := DD.rootAtLeast_node hk'
          by_cases h1 : l0 < x
          · simp only [term_accumulate6_within, term_accumulate6, hloop, hres, h1, if_true]
          · by_cases h2 : l0 > x
            · simp only [term_accumulate6_within, term_accumulate6, hloop, hres, h1, if_false,
                h2, if_true]
              rw [upper_term_accumulate_within_eq n passes hp init us t (x + 1) q hwt hnt
                (DD.rootAtLeast_of_rootAbove hrt) (by omega),
                lower_term_accumulate_within_eq n init e (l0 :: ls) (x + 1) q hwe hne
                (DD.rootAtLeast_of_rootAbove hre) (by omega)]
              cases upper_term_accumulate us t init <;> rfl
            · have h3 : ¬ (l0 ≠ x) := by omega
              simp only [term_accumulate6_within, term_accumulate6, hloop, hres, h1, if_false,
                h2]
              rw [if_neg h3, if_neg h3,
                ih t ls (x + 1) q hwt hnt (DD.rootAtLeast_of_rootAbove hrt) (by omega)]
              rfl

/-- On a diagram over `n` variables at most `n + 2` calls are nested below a
call of the three-argument `term_accumulate`. -/
theorem term_accumulate_within_eq (n passes : ℕ) (hp : n ≤ passes) (init : BoolePolynomial)
    (first last : TermIter) (depth : ℕ) (hw : first.navigation.wellFormed = true)
    (hn : first.navigation.indicesBelow n = true) (hd : n + 2 ≤ depth) :
    term_accumulate_within depth passes first last init
      = some (term_accumulate first last init) := by
  have h0 := DD.rootAtLeast_zero first.navigation
  cases depth with
  | zero => omega
  | succ q =>
    unfold term_accumulate_within term_accumulate
    by_cases hone : last.isOne = true
    · simp only [hone, if_true]
      rw [upper_term_accumulate_within_eq n passes hp init first.indices first.navigation 0 q
        hw hn h0 (by omega)]
      rfl
    · simp only [hone, if_false]
      rw [term_accumulate6_within_eq n passes hp init first.indices first.navigation
        last.indices 0 q hw hn h0 (by omega)]
      rfl

/-- C17 as stated fails: for the well-formed polynomial `x0*x1 + x0` over
`n = 2` ring variables, with `first` at its term `x0*x1` and `last` at its term
`x0`, the six-argument `term_accumulate` cannot finish with two calls nested
below it and needs three (itself on the then-branch, `upper_term_accumulate`
handed the rest, `upper_term_accumulate` on the exhausted range), and the
three-argument `term_accumulate` cannot finish with three and needs four. -/
theorem term_accumulate_nesting_exceeds_variables :
    diagramA.wellFormed = true ∧ diagramA.indicesBelow 2 = true ∧
    diagramA.terms = [[0, 1], [0]] ∧
    TermIter.indices ⟨diagramA, 0⟩ = [0, 1] ∧ TermIter.indices ⟨diagramA, 1⟩ = [0] ∧
    term_accumulate6_within 2 2 [0, 1] diagramA [0] 0 = none ∧
    term_accumulate6_within 3 2 [0, 1] diagramA [0] 0
      = some (term_accumulate6 [0, 1] diagramA [0] 0) ∧
    term_accumulate_within 3 2 ⟨diagramA, 0⟩ ⟨diagramA, 1⟩ 0 = none ∧
    term_accumulate_within 4 2 ⟨diagramA, 0⟩ ⟨diagramA, 1⟩ 0
      = some (term_accumulate ⟨diagramA, 0⟩ ⟨diagramA, 1⟩ 0) := by
  decide

/-- C17 (amended): for a well-formed polynomial over `n` ring variables and
positions `first` not after `last` of its term enumeration, every
else-skipping loop ends within `n` passes, and counting every call of an
accumulation routine made from the body of another or of itself,
`upper_term_accumulate` and `lower_term_accumulate` return with at most `n`
calls nested below the initial call, the six-argument `term_accumulate` with
at most `n + 1`, and the three-argument `term_accumulate` returns or stops at
its closing assertion with at most `n + 2`. -/
theorem term_accumulation_nesting_le (n : ℕ) (p : DD) (hw : p.wellFormed = true)
    (hn : p.indicesBelow n = true) (i j : ℕ) (hij : i ≤ j) (init : BoolePolynomial) :
    (∀ u : ℕ, incrementElseWhile_within n u p = some (incrementElseWhile u p)) ∧
    (∃ r : DD, upper_term_accumulate (TermIter.indices ⟨p, i⟩) p init = .ok r ∧
      upper_term_accumulate_within n n (TermIter.indices ⟨p, i⟩) p init = some (.ok r)) ∧
    (∃ r : DD, lower_term_accumulate p (TermIter.indices ⟨p, j⟩) init = .ok r ∧
      lower_term_accumulate_within n p (TermIter.indices ⟨p, j⟩) init = some (.ok r)) ∧
    (∃ r : DD,
      term_accumulate6 (TermIter.indices ⟨p, i⟩) p (TermIter.indices ⟨p, j⟩) init = .ok r ∧
      term_accumulate6_within (n + 1) n (TermIter.indices ⟨p, i⟩) p (TermIter.indices ⟨p, j⟩)
        init = some (.ok r)) ∧
    term_accumulate_within (n + 2) n ⟨p, i⟩ ⟨p, j⟩ init
      = some (term_accumulate ⟨p, i⟩ ⟨p, j⟩ init) ∧
    ((∃ r : BoolePolynomial, term_accumulate ⟨p, i⟩ ⟨p, j⟩ init = .ok r) ∨
      term_accumulate ⟨p, i⟩ ⟨p, j⟩ init = .error .assertion) := by
  have h0 := DD.rootAtLeast_zero p
  have h6 : ∃ r : DD, term_accumulate6 (TermIter.indices ⟨p, i⟩) p
      (TermIter.indices ⟨p, j⟩) init = .ok r :=
    term_accumulate6_ok _ p _ i j init hw hij (TermIter.indices_cases p i)
      (TermIter.indices_cases p j)
  have hup : ∃ r : DD, upper_term_accumulate (TermIter.indices ⟨p, i⟩) p init = .ok r := by
    rcases TermIter.indices_cases p i with h | h
    · rw [h]; exact ⟨_, rfl⟩
    · obtain ⟨r, hr, _⟩ := upper_term_accumulate_terms _ p i init hw h
      exact ⟨r, hr⟩
  have hlow : ∃ r : DD, lower_term_accumulate p (TermIter.indices ⟨p, j⟩) init = .ok r := by
    rcases TermIter.indices_cases p j with h | h
    · rw [h]
      cases p <;> exact ⟨_, rfl⟩
    · exact lower_term_accumulate_ok p _ init hw (List.getElem?_mem h)
  refine ⟨fun u => incrementElseWhile_within_eq n u p 0 n hw hn h0 (by omega), ?_, ?_, ?_,
    term_accumulate_within_eq n n (Nat.le_refl n) init ⟨p, i⟩ ⟨p, j⟩ (n + 2) hw hn
      (Nat.le_refl _), ?_⟩
  · obtain ⟨r, hr⟩ := hup
    refine ⟨r, hr, ?_⟩
    rw [upper_term_accumulate_within_eq n n (Nat.le_refl n) init _ p 0 n hw hn h0 (by omega), hr]
  · obtain ⟨r, hr⟩ := hlow
    refine ⟨r, hr, ?_⟩
    rw [lower_term_accumulate_within_eq n init p _ 0 n hw hn h0 (by omega), hr]
  · obtain ⟨r, hr⟩ := h6
    refine ⟨r, hr, ?_⟩
    rw [term_accumulate6_within_eq n n (Nat.le_refl n) init _ p _ 0 (n + 1) hw hn h0 (by omega),
      hr]
  · unfold term_accumulate
    by_cases hone : TermIter.isOne ⟨p, j⟩ = true
    · obtain ⟨r, hr⟩ := hup
      left
      simp only [hone, if_true]
      change ∃ r', (upper_term_accumulate (TermIter.indices ⟨p, i⟩) p init >>=
        fun upper => pure (upper.poly + 1)) = Except.ok r'
      rw [hr]
      exact ⟨_, rfl⟩
    · obtain ⟨r, hr⟩ := h6
      simp only [hone, if_false]
      change (∃ r', (term_accumulate6 (TermIter.indices ⟨p, i⟩) p (TermIter.indices ⟨p, j⟩) init
          >>= fun result =>
            if result.poly ≠ std_accumulate ⟨p, i⟩ ⟨p, j⟩ init then Except.error Failure.assertion
            else pure result.poly) = Except.ok r') ∨
        (term_accumulate6 (TermIter.indices ⟨p, i⟩) p (TermIter.indices ⟨p, j⟩) init
          >>= fun result =>
            if result.poly ≠ std_accumulate ⟨p, i⟩ ⟨p, j⟩ init then Except.error Failure.assertion
            else pure result.poly) = Except.error Failure.assertion
      rw [hr, ok_bind]
      by_cases hne : r.poly ≠ std_accumulate ⟨p, i⟩ ⟨p, j⟩ init
      · right; rw [if_pos hne]
      · left; rw [if_neg hne]; exact ⟨_, rfl⟩

theorem term_accumulation_nesting_le_witness :
    (∀ u : ℕ, incrementElseWhile_within 2 u diagramA = some (incrementElseWhile u diagramA)) ∧
    (∃ r : DD, upper_term_accumulate (TermIter.indices ⟨diagramA, 0⟩) diagramA 0 = .ok r ∧
      upper_term_accumulate_within 2 2 (TermIter.indices ⟨diagramA, 0⟩) diagramA 0
        = some (.ok r)) ∧
    (∃ r : DD, lower_term_accumulate diagramA (TermIter.indices ⟨diagramA, 1⟩) 0 = .ok r ∧
      lower_term_accumulate_within 2 diagramA (TermIter.indices ⟨diagramA, 1⟩) 0
        = some (.ok r)) ∧
    (∃ r : DD,
      term_accumulate6 (TermIter.indices ⟨diagramA, 0⟩) diagramA
        (TermIter.indices ⟨diagramA, 1⟩) 0 = .ok r ∧
      term_accumulate6_within (2 + 1) 2 (TermIter.indices ⟨diagramA, 0⟩) diagramA
        (TermIter.indices ⟨diagramA, 1⟩) 0 = some (.ok r)) ∧
    term_accumulate_within (2 + 2) 2 ⟨diagramA, 0⟩ ⟨diagramA, 1⟩ 0
      = some (term_accumulate ⟨diagramA, 0⟩ ⟨diagramA, 1⟩ 0) ∧
    ((∃ r : BoolePolynomial, term_accumulate ⟨diagramA, 0⟩ ⟨diagramA, 1⟩ 0 = .ok r) ∨
      term_accumulate ⟨diagramA, 0⟩ ⟨diagramA, 1⟩ 0 = .error .assertion) :=
  term_accumulation_nesting_le 2 diagramA (by decide) (by decide) 0 1 (by decide) 0

/-! ## Terms and degree of the S-polynomial -/

theorem spoly_of_leads {f g : BoolePolynomial} {lf lg : BooleMonomial}
    (hf : lead f = .ok lf) (hg : lead g = .ok lg) :
    spoly f g = .ok (mulMonomial f (lg \ lf) + mulMonomial g (lf \ lg)) := by
  obtain ⟨hd1, _⟩ := BooleMonomial.div_mul_left lf lg
  obtain ⟨hd2, _⟩ := BooleMonomial.div_mul_right lf lg
  simp only [spoly, hf, hg, ok_bind, hd1, hd2]
  rfl

/-- The S-polynomial is the sum of the two tails multiplied by the cofactors:
the two copies of the least common multiple cancel. -/
theorem spoly_eq_tails {f g : BoolePolynomial} {lf lg : BooleMonomial}
    (hf : lead f = .ok lf) (hg : lead g = .ok lg) :
    spoly f g = .ok (mulMonomial (f.erase lf) (lg \ lf) + mulMonomial (g.erase lg) (lf \ lg)) := by
  obtain ⟨hlf, _⟩ := lead_spec hf
  obtain ⟨hlg, _⟩ := lead_spec hg
  rw [spoly_of_leads hf hg, mulMonomial_eq_lead_add hlf, mulMonomial_eq_lead_add hlg]
  have e1 : lf ∪ lg \ lf = lf ∪ lg := Finset.union_sdiff_self_eq_union
  have e2 : lg ∪ lf \ lg = lf ∪ lg := by
    rw [Finset.union_sdiff_self_eq_union, Finset.union_comm]
  rw [e1, e2]
  congr 1
  have : ∀ a b c : BoolePolynomial, (a + b) + (a + c) = (a + a) + (b + c) := by
    intro a b c; abel
  rw [this, BoolePolynomial.add_self, zero_add]

/-- C14: for non-zero `f` and `g` the two leading terms cancel in `spoly f g`:
the least common multiple of the leads does not occur in it, and every term of
it is strictly smaller than that multiple in the monomial order. -/
theorem spoly_terms_lt_lcm (f g : BoolePolynomial) (hf : f ≠ 0) (hg : g ≠ 0) :
    ∃ (lf lg : BooleMonomial) (S : BoolePolynomial),
      lead f = .ok lf ∧ lead g = .ok lg ∧ spoly f g = .ok S ∧
      BooleMonomial.isLcm (BooleMonomial.mul lf lg) lf lg ∧
      BooleMonomial.mul lf lg ∉ S ∧
      ∀ x ∈ S, BooleMonomial.lt x (BooleMonomial.mul lf lg) := by
  obtain ⟨lf, hlf⟩ := lead_ok_of_ne_zero f hf
  obtain ⟨lg, hlg⟩ := lead_ok_of_ne_zero g hg
  obtain ⟨_, hflt⟩ := lead_spec hlf
  obtain ⟨_, hglt⟩ := lead_spec hlg
  have hall : ∀ x ∈ mulMonomial (f.erase lf) (lg \ lf) + mulMonomial (g.erase lg) (lf \ lg),
      BooleMonomial.lt x (BooleMonomial.mul lf lg) := by
    intro x hx
    unfold BooleMonomial.mul
    rcases BoolePolynomial.mem_add.mp hx with ⟨h1, _⟩ | ⟨h1, _⟩
    · have := mulMonomial_erase_lt_lead hflt Finset.sdiff_disjoint h1
      rwa [Finset.union_sdiff_self_eq_union] at this
    · have := mulMonomial_erase_lt_lead hglt Finset.sdiff_disjoint h1
      rwa [Finset.union_sdiff_self_eq_union, Finset.union_comm] at this
  refine ⟨lf, lg, _, hlf, hlg, spoly_eq_tails hlf hlg, BooleMonomial.isLcm_mul lf lg, ?_, hall⟩
  intro hmem
  exact BooleMonomial.lt_irrefl _ (hall _ hmem)

theorem spoly_terms_lt_lcm_witness :
    ∃ (lf lg : BooleMonomial) (S : BoolePolynomial),
      lead generatorF = .ok lf ∧ lead generatorG = .ok lg ∧
      spoly generatorF generatorG = .ok S ∧
      BooleMonomial.isLcm (BooleMonomial.mul lf lg) lf lg ∧
      BooleMonomial.mul lf lg ∉ S ∧
      ∀ x ∈ S, BooleMonomial.lt x (BooleMonomial.mul lf lg) :=
  spoly_terms_lt_lcm generatorF generatorG (by decide) (by decide)

theorem add_lead_eq_erase {f : BoolePolynomial} {lf : BooleMonomial} (h : lf ∈ f) :
    f + ({lf} : BoolePolynomial) = f.erase lf := by
  ext x
  rw [BoolePolynomial.mem_add, Finset.mem_erase, Finset.mem_singleton]
  constructor
  · rintro (⟨h1, h2⟩ | ⟨h1, h2⟩)
    · exact ⟨h2, h1⟩
    · exact absurd (h1 ▸ h) h2
  · rintro ⟨h1, h2⟩
    exact Or.inl ⟨h2, h1⟩

theorem spoly_eq_partialSum_of_coprime {f g : BoolePolynomial} {lf lg : BooleMonomial}
    (hf : lead f = .ok lf) (hg : lead g = .ok lg) (hc : Disjoint lf lg) :
    spoly f g = .ok (partialSum f g (f.erase lf) (g.erase lg)) := by
  obtain ⟨hlf, _⟩ := lead_spec hf
  obtain ⟨hlg, _⟩ := lead_spec hg
  have e1 : lg \ lf = lg := Finset.sdiff_eq_self_of_disjoint hc.symm
  have e2 : lf \ lg = lf := Finset.sdiff_eq_self_of_disjoint hc
  rw [spoly_of_leads hf hg, e1, e2]
  have key := sum_mulMonomial_comm f g
  rw [← Finset.add_sum_erase f (fun a => mulMonomial g a) hlf,
    ← Finset.add_sum_erase g (fun b => mulMonomial f b) hlg] at key
  have hzero : (mulMonomial f lg + mulMonomial g lf)
      + partialSum f g (f.erase lf) (g.erase lg) = 0 := by
    unfold partialSum
    have : (mulMonomial f lg + mulMonomial g lf)
        + (∑ s in f.erase lf, mulMonomial g s + ∑ r in g.erase lg, mulMonomial f r)
        = (mulMonomial g lf + ∑ s in f.erase lf, mulMonomial g s)
          + (mulMonomial f lg + ∑ r in g.erase lg, mulMonomial f r) := by abel
    rw [this, key, BoolePolynomial.add_self]
  rw [BoolePolynomial.eq_of_add_eq_zero hzero]

/-- C18: for `f` and `g` with leads `lf` and `lg` that share no variable,
`spoly f g` is `(f + lead f) * g + (g + lead g) * f`, the tail of `f` times `g`
plus the tail of `g` times `f`. -/
theorem spoly_eq_tail_products (f g : BoolePolynomial) (lf lg : BooleMonomial)
    (hf : lead f = .ok lf) (hg : lead g = .ok lg) (hc : Disjoint lf lg) :
    spoly f g = .ok (mulPolynomial (f + {lf}) g + mulPolynomial (g + {lg}) f) := by
  obtain ⟨hlf, _⟩ := lead_spec hf
  obtain ⟨hlg, _⟩ := lead_spec hg
  rw [spoly_eq_partialSum_of_coprime hf hg hc, add_lead_eq_erase hlf, add_lead_eq_erase hlg]
  rfl

theorem spoly_eq_tail_products_witness :
    spoly generatorF generatorG
      = .ok (mulPolynomial (generatorF + {{0}}) generatorG
          + mulPolynomial (generatorG + {{1, 2}}) generatorF) :=
  spoly_eq_tail_products generatorF generatorG {0} {1, 2} (by decide) (by decide) (by decide)

/-! ## The comparison of entries and the entry set -/

theorem PolyEntryPtrLmLess.equiv_iff (a b : PolyEntry) :
    PolyEntryPtrLmLess.equiv a b = true ↔ a.lead = b.lead := by
  simp only [PolyEntryPtrLmLess.equiv, PolyEntryPtrLmLess, Bool.and_eq_true, Bool.not_eq_true',
    decide_eq_false_iff_not]
  constructor
  · rintro ⟨h1, h2⟩
    by_contra hne
    rcases BooleMonomial.lt_or_lt_of_ne hne with h | h
    · exact h1 h
    · exact h2 h
  · intro h
    rw [h]
    exact ⟨BooleMonomial.lt_irrefl _, BooleMonomial.lt_irrefl _⟩

theorem entryset_of_append_singleton (l : List PolyEntry) (e : PolyEntry) :
    entryset_of (l ++ [e]) = entryset_insert (entryset_of l) e := by
  simp [entryset_of, List.foldl_append]

theorem entryset_insert_of_present {s : List PolyEntry} {e : PolyEntry}
    (h : ∃ x ∈ s, x.lead = e.lead) : entryset_insert s e = s := by
  obtain ⟨x, hx, hlead⟩ := h
  have : s.any (fun x => PolyEntryPtrLmLess.equiv x e) = true :=
    List.any_eq_true.mpr ⟨x, hx, (PolyEntryPtrLmLess.equiv_iff x e).mpr hlead⟩
  simp [entryset_insert, this]

theorem entryset_insert_of_absent {s : List PolyEntry} {e : PolyEntry}
    (h : ∀ x ∈ s, x.lead ≠ e.lead) :
    entryset_insert s e = s.takeWhile (fun x => PolyEntryPtrLmLess x e) ++
      e :: s.dropWhile (fun x => PolyEntryPtrLmLess x e) := by
  have : s.any (fun x => PolyEntryPtrLmLess.equiv x e) = false := by
    rw [List.any_eq_false]
    intro x hx hq
    exact h x hx ((PolyEntryPtrLmLess.equiv_iff x e).mp hq)
  simp [entryset_insert, this]

/-- The entry set built from `l` has pairwise distinct leads, every one of
its entries is the first entry of `l` with its lead, and every lead of `l`
is represented. -/
theorem entryset_of_spec (l : List PolyEntry) :
    (entryset_of l).Pairwise (fun a b => a.lead ≠ b.lead) ∧
    (∀ x ∈ entryset_of l, l.find? (fun y => decide (y.lead = x.lead)) = some x) ∧
    (∀ e ∈ l, ∃ x ∈ entryset_of l, x.lead = e.lead) := by
  induction l using List.reverseRecOn with
  | nil => simp [entryset_of]
  | append_singleton l e ih =>
    obtain ⟨hpw, hfirst, hrep⟩ := ih
    rw [entryset_of_append_singleton]
    by_cases hpres : ∃ x ∈ entryset_of l, x.lead = e.lead
    · rw [entryset_insert_of_present hpres]
      refine ⟨hpw, ?_, ?_⟩
      · intro x hx
        rw [List.find?_append, hfirst x hx]
        rfl
      · intro e' he'
        rcases List.mem_append.mp he' with h | h
        · exact hrep e' h
        · rw [List.mem_singleton] at h
          subst h
          exact hpres
    · have habs : ∀ x ∈ entryset_of l, x.lead ≠ e.lead := by
        intro x hx hlead
        exact hpres ⟨x, hx, hlead⟩
      rw [entryset_insert_of_absent habs]
      have hsplit := List.takeWhile_append_dropWhile (fun x => PolyEntryPtrLmLess x e)
        (entryset_of l)
      have hmemA : ∀ x ∈ (entryset_of l).takeWhile (fun x => PolyEntryPtrLmLess x e),
          x ∈ entryset_of l := fun x hx => by
        rw [← hsplit]; exact List.mem_append_left _ hx
      have hmemB : ∀ x ∈ (entryset_of l).dropWhile (fun x => PolyEntryPtrLmLess x e),
          x ∈ entryset_of l := fun x hx => by
        rw [← hsplit]; exact List.mem_append_right _ hx
      have hnone : l.find? (fun y => decide (y.lead = e.lead)) = none := by
        rw [List.find?_eq_none]
        intro y hy hq
        obtain ⟨x, hx, hlead⟩ := hrep y hy
        exact habs x hx (hlead.trans (of_decide_eq_true hq))
      refine ⟨?_, ?_, ?_⟩
      · rw [← hsplit, List.pairwise_append] at hpw
        obtain ⟨hA, hB, hAB⟩ := hpw
        rw [List.pairwise_append]
        refine ⟨hA, ?_, ?_⟩
        · rw [List.pairwise_cons]
          exact ⟨fun b hb => (habs b (hmemB b hb)).symm, hB⟩
        · intro a ha b hb
          rcases List.mem_cons.mp hb with rfl | hb
          · exact habs a (hmemA a ha)
          · exact hAB a ha b hb
      · intro x hx
        rw [List.find?_append]
        rcases List.mem_append.mp hx with h | h
        · rw [hfirst x (hmemA x h)]; rfl
        · rcases List.mem_cons.mp h with rfl | h
          · rw [hnone]
            simp
          · rw [hfirst x (hmemB x h)]; rfl
      · intro e' he'
        rcases List.mem_append.mp he' with h | h
        · obtain ⟨x, hx, hlead⟩ := hrep e' h
          refine ⟨x, ?_, hlead⟩
          rw [← hsplit] at hx
          rcases List.mem_append.mp hx with h1 | h1
          · exact List.mem_append_left _ h1
          · exact List.mem_append_right _ (List.mem_cons_of_mem _ h1)
        · rw [List.mem_singleton] at h
          subst h
          exact ⟨e', List.mem_append_right _ (List.mem_cons_self _ _), rfl⟩

/-- C19: `PolyEntryPtrLmLess` depends on the lead monomials of its arguments
only; it is irreflexive, asymmetric and transitive, and two entries are
equivalent under it exactly when their lead monomials are equal, so that an
`entryset_type` holds at most one entry per lead monomial, the first one of
the insertion sequence. -/
theorem PolyEntryPtrLmLess_strict_weak_order :
    (∀ a a' b b' : PolyEntry, a.lead = a'.lead → b.lead = b'.lead →
      PolyEntryPtrLmLess a b = PolyEntryPtrLmLess a' b') ∧
    (∀ a : PolyEntry, PolyEntryPtrLmLess a a = false) ∧
    (∀ a b : PolyEntry, PolyEntryPtrLmLess a b = true → PolyEntryPtrLmLess b a = false) ∧
    (∀ a b c : PolyEntry, PolyEntryPtrLmLess a b = true → PolyEntryPtrLmLess b c = true →
      PolyEntryPtrLmLess a c = true) ∧
    (∀ a b : PolyEntry, PolyEntryPtrLmLess.equiv a b = true ↔ a.lead = b.lead) ∧
    (∀ l : List PolyEntry, (entryset_of l).Pairwise (fun a b => a.lead ≠ b.lead)) ∧
    (∀ (l : List PolyEntry) (e : PolyEntry), e ∈ l →
      ∃ x ∈ entryset_of l, x.lead = e.lead ∧
        l.find? (fun y => decide (y.lead = e.lead)) = some x) := by
  refine ⟨?_, ?_, ?_, ?_, PolyEntryPtrLmLess.equiv_iff, fun l => (entryset_of_spec l).1, ?_⟩
  · intro a a' b b' h1 h2
    simp only [PolyEntryPtrLmLess, h1, h2]
  · intro a
    simpa [PolyEntryPtrLmLess] using BooleMonomial.lt_irrefl a.lead
  · intro a b h
    have h1 : BooleMonomial.lt a.lead b.lead := by simpa [PolyEntryPtrLmLess] using h
    simpa [PolyEntryPtrLmLess] using BooleMonomial.lt_asymm h1
  · intro a b c h1 h2
    have h1' : BooleMonomial.lt a.lead b.lead := by simpa [PolyEntryPtrLmLess] using h1
    have h2' : BooleMonomial.lt b.lead c.lead := by simpa [PolyEntryPtrLmLess] using h2
    simpa [PolyEntryPtrLmLess] using BooleMonomial.lt_trans h1' h2'
  · intro l e he
    obtain ⟨_, hfirst, hrep⟩ := entryset_of_spec l
    obtain ⟨x, hx, hlead⟩ := hrep e he
    refine ⟨x, hx, hlead, ?_⟩
    rw [← hlead]
    exact hfirst x hx

end PBoRi
